import Mathlib

/-!
A verification development for the `png-parser` repository.

The C++ sources (`inflater.hpp`, `png-parser.cpp`) are shallowly embedded as
executable Lean definitions.  Machine integers are modelled as `Nat` (with an
explicit `% 2^w` wherever the C++ value is truncated by an assignment to a
narrower unsigned type), C++ `int` arithmetic that can go negative is modelled
on `Int`, fallible code returns `Option`/`Except`, and `while` loops become
fuel-indexed iteration.  Out-of-bounds accesses that are undefined behaviour
in the C++ source are modelled as a distinguished `undefinedBehavior` error.
-/

set_option maxRecDepth 200000

/-- C++ `~n` applied to a (promoted, 32-bit) `int` holding a value in
`[0, 2^16)`: the result is `-(n+1)`.  This models the integer promotion in
`LEN != ~NLEN` (inflater.hpp line 439), where `NLEN : uint16_t` is promoted
to `int` before the bitwise complement. -/
def intNotC (n : Nat) : Int := -((n : Int) + 1)

/-- `HuffmanCode` from inflater.hpp: a decoded symbol (`value`) together with
the bit length of its code (`bits`). -/
structure HuffmanCode where
  value : Nat
  bits  : Nat
deriving Repr, DecidableEq

/-- `HuffmanTable` from inflater.hpp: a flat decode table (the
`std::vector<HuffmanCode>` base) plus `maxBits`. -/
structure HuffmanTable where
  entries : List HuffmanCode
  maxBits : Nat
deriving Repr, DecidableEq

/-- The `lengthCount` array of `HuffmanTable::makeTable`: the number of
symbols with code length `l`, with the count for length 0 zeroed
(`lengthCount[0] = 0`). -/
def lengthCount (lengths : List Nat) (l : Nat) : Nat :=
  if l = 0 then 0 else lengths.count l

/-- The canonical first code of each bit length, i.e. the value `nextCode[L]`
holds after the `for (bits = 1; bits <= maxLength; bits++)` loop of
`makeTable` and before any placement:  `code = (code + lengthCount[bits-1]) << 1`.
`code` is a `uint16_t`, hence the `% 65536` on assignment. -/
def firstCode (lengths : List Nat) : Nat → Nat
  | 0 => 0
  | l + 1 => ((firstCode lengths l + lengthCount lengths l) * 2) % 65536

/-- State of the symbol-placement loop of `makeTable`: the mutable `nextCode`
vector and the decode table being filled. -/
def placeStep (lengths : List Nat) (maxLength : Nat)
    (st : List Nat × List HuffmanCode) (x : Nat) : List Nat × List HuffmanCode :=
  let len := lengths.getD x 0
  if len = 0 then st
  else
    let code := st.1.getD len 0
    (st.1.set len ((code + 1) % 65536),
     st.2.set (code <<< (maxLength - len)) ⟨x, len⟩)

/-- The fill-down loop of `makeTable`: every slot whose `bits` is still 0
inherits the most recent populated slot (`lastCode`). -/
def fillDown (last : HuffmanCode) : List HuffmanCode → List HuffmanCode
  | [] => []
  | c :: rest => if c.bits = 0 then last :: fillDown last rest
                 else c :: fillDown c rest

/-- `HuffmanTable::makeTable` (inflater.hpp lines 26-78). -/
def makeTable (lengths : List Nat) : HuffmanTable :=
  let maxLength := lengths.foldl max 0
  let nextCode := (List.range (maxLength + 1)).map (firstCode lengths)
  let empty : List HuffmanCode := List.replicate (2 ^ maxLength) ⟨0, 0⟩
  let placed := ((List.range lengths.length).foldl
    (placeStep lengths maxLength) (nextCode, empty)).2
  ⟨fillDown (placed.getD 0 ⟨0, 0⟩) placed, maxLength⟩

/-- The body of the bit-reversal loop of `reverseBits<uint16_t>`
(inflater.hpp lines 81-96), entered after the initial `v >>= 1`:
`while (v) { r <<= 1; r |= v & 1; s--; v >>= 1; }` followed by `r <<= s`.
`r` is a `uint16_t`, whence the `% 65536`.  The loop halves `v` each
iteration; since the C++ `v` is a `uint16_t` (so `v < 2^16` on entry), 16
iterations always suffice, and the structural `fuel` parameter (16 at the
call site) never runs out on the C++ type's domain. -/
def revLoopGo : Nat → Nat → Nat → Nat → Nat
  | 0, _, r, s => (r <<< s) % 65536
  | fuel + 1, v, r, s =>
    if v = 0 then (r <<< s) % 65536
    else revLoopGo fuel (v / 2) ((((r <<< 1) % 65536) ||| (v % 2)) % 65536) (s - 1)

/-- `reverseBits<uint16_t>(v)`: full 16-bit reversal. -/
def reverseBits16 (v : Nat) : Nat := revLoopGo 16 (v / 2) v 15

/-- `reverseBits<uint16_t>(v, maxBits)` (inflater.hpp lines 98-102). -/
def reverseBitsV (v maxBits : Nat) : Nat := reverseBits16 v >>> (16 - maxBits)

/-- `invertTableBits` (inflater.hpp lines 110-118): start from a copy of the
table and move slot `x` to slot `reverseBits(x, maxBits)`. -/
def invertTableBits (t : HuffmanTable) : HuffmanTable :=
  ⟨(List.range t.entries.length).foldl
      (fun acc x => acc.set (reverseBitsV x t.maxBits) (t.entries.getD x ⟨0, 0⟩))
      t.entries,
   t.maxBits⟩

/-- `decodeCode` (inflater.hpp lines 104-108) with `T = uint16_t`:
`table[bits & (T(-1) >> (16 - maxBits))]`. -/
def decodeCode (t : HuffmanTable) (bits : Nat) : HuffmanCode :=
  t.entries.getD (bits &&& (65535 >>> (16 - t.maxBits))) ⟨0, 0⟩

/-- `BitStream::Offset`: a byte index plus a bit index inside that byte. -/
structure BitOffset where
  byteOffset : Nat
  bitOffset  : Nat
deriving Repr, DecidableEq

/-- `BitStream::roundPosition`. -/
def roundPosition (off : BitOffset) : BitOffset :=
  if off.bitOffset > 0 then ⟨off.byteOffset + 1, 0⟩ else off

/-- The `while (count >= 8)` loop of `BitStream::readBits`.  Returns
`(out, byteOffset, shift, count, early)` where `early` records that the loop
hit `byteOffset >= data.size()` and the C++ function returned `out` there. -/
def readBitsWhole (data : List Nat) : Nat → Nat → Nat → Nat →
    Nat × Nat × Nat × Nat × Bool
  | count + 8, out, shift, byteOff =>
    if byteOff ≥ data.length then (out, byteOff, shift, count + 8, true)
    else readBitsWhole data count (out ||| ((data.getD byteOff 0) <<< shift))
          (shift + 8) (byteOff + 1)
  | count, out, shift, byteOff => (out, byteOff, shift, count, false)

/-- `BitStream::readBits` (inflater.hpp lines 149-212), for an integral type
wide enough that none of the `|=` accumulations wrap (true of every call site
in the source).  Returns the value read and the new offset.  Reading past the
end of `data` silently yields zero bits. -/
def readBits (data : List Nat) (off : BitOffset) (count : Nat) : Nat × BitOffset :=
  if off.byteOffset ≥ data.length then (0, off)
  else
    let (out1, shift1, count1, off1) :=
      if off.bitOffset ≠ 0 then
        let byte := (data.getD off.byteOffset 0) >>> off.bitOffset
        let available := 8 - off.bitOffset
        let toRead := min available count
        let out := byte &&& (0xFF >>> (8 - toRead))
        let newBit := off.bitOffset + toRead
        if newBit = 8 then (out, toRead, count - toRead, (⟨off.byteOffset + 1, 0⟩ : BitOffset))
        else (out, toRead, count - toRead, (⟨off.byteOffset, newBit⟩ : BitOffset))
      else (0, 0, count, off)
    let (out2, byteOff2, shift2, count2, early) :=
      readBitsWhole data count1 out1 shift1 off1.byteOffset
    if early then (out2, ⟨byteOff2, off1.bitOffset⟩)
    else if count2 > 0 ∧ byteOff2 < data.length then
      let byte := data.getD byteOff2 0
      (out2 ||| ((byte &&& (0xFF >>> (8 - count2))) <<< shift2), ⟨byteOff2, count2⟩)
    else (out2, ⟨byteOff2, off1.bitOffset⟩)

/-- `BitStream::readHuffmanCode` (inflater.hpp lines 265-283): peek
`maxBits` bits, decode, then advance the *original* offset by the decoded
code's bit length (the `while (bitOffset >= 8)` normalisation is the closed
form `byteOffset + b / 8`, `b % 8`). -/
def readHuffmanCode (data : List Nat) (off : BitOffset) (t : HuffmanTable) :
    Nat × BitOffset :=
  let bits := (readBits data off t.maxBits).1
  let code := decodeCode t bits
  let b := off.bitOffset + code.bits
  (code.value, ⟨off.byteOffset + b / 8, b % 8⟩)

/-- One entry of the length/distance alphabets (`Alphabet::Entry`). -/
structure AlphaEntry where
  extraBits : Nat
  baseLength : Nat
deriving Repr, DecidableEq

/-- `Alphabet::Length` (inflater.hpp lines 295-326): base values and extra
bit counts for length symbols 257-285. -/
def lengthAlphabet : List AlphaEntry :=
  [⟨0, 3⟩, ⟨0, 4⟩, ⟨0, 5⟩, ⟨0, 6⟩, ⟨0, 7⟩, ⟨0, 8⟩, ⟨0, 9⟩, ⟨0, 10⟩,
   ⟨1, 11⟩, ⟨1, 13⟩, ⟨1, 15⟩, ⟨1, 17⟩, ⟨2, 19⟩, ⟨2, 23⟩, ⟨2, 27⟩, ⟨2, 31⟩,
   ⟨3, 35⟩, ⟨3, 43⟩, ⟨3, 51⟩, ⟨3, 59⟩, ⟨4, 67⟩, ⟨4, 83⟩, ⟨4, 99⟩, ⟨4, 115⟩,
   ⟨5, 131⟩, ⟨5, 163⟩, ⟨5, 195⟩, ⟨5, 227⟩, ⟨0, 258⟩]

/-- `Alphabet::Distance` (inflater.hpp lines 328-360). -/
def distanceAlphabet : List AlphaEntry :=
  [⟨0, 1⟩, ⟨0, 2⟩, ⟨0, 3⟩, ⟨0, 4⟩, ⟨1, 5⟩, ⟨1, 7⟩, ⟨2, 9⟩, ⟨2, 13⟩,
   ⟨3, 17⟩, ⟨3, 25⟩, ⟨4, 33⟩, ⟨4, 49⟩, ⟨5, 65⟩, ⟨5, 97⟩, ⟨6, 129⟩, ⟨6, 193⟩,
   ⟨7, 257⟩, ⟨7, 385⟩, ⟨8, 513⟩, ⟨8, 769⟩, ⟨9, 1025⟩, ⟨9, 1537⟩,
   ⟨10, 2049⟩, ⟨10, 3073⟩, ⟨11, 4097⟩, ⟨11, 6145⟩, ⟨12, 8193⟩, ⟨12, 12289⟩,
   ⟨13, 16385⟩, ⟨13, 24577⟩]

/-- `staticLengthTable` (inflater.hpp lines 363-371). -/
def staticLengthTable : HuffmanTable :=
  invertTableBits (makeTable
    (List.replicate 144 8 ++ List.replicate 112 9 ++
     List.replicate 24 7 ++ List.replicate 8 8))

/-- `staticDistanceTable` (inflater.hpp lines 373-378). -/
def staticDistanceTable : HuffmanTable :=
  invertTableBits (makeTable (List.replicate 32 5))

/-- Outcomes of `inflate`.  The C++ function collapses every failure to
`std::nullopt`; the model keeps them apart.  `undefinedBehavior` marks a
point where the C++ source performs an out-of-bounds access (it has no
defined C++ semantics); `outOfFuel` marks exhaustion of the fuel bounding
the model's loops. -/
inductive InfErr where
  | unsupportedMethod
  | invalidWindow
  | dictUnsupported
  | fcheckFail
  | invalidStoredLength
  | undefinedBehavior
  | outOfFuel
deriving Repr, DecidableEq

/-- Result of one iteration of a fuelled `while` loop: continue with a new
state, finish with a result, or abort with an error. -/
inductive StepRes (σ ρ : Type) where
  | cont (s : σ)
  | done (r : ρ)
  | fail (e : InfErr)

/-- Fuelled iteration of a loop body. -/
def runLoop {σ ρ : Type} (step : σ → StepRes σ ρ) : Nat → σ → Except InfErr ρ
  | 0, _ => .error .outOfFuel
  | fuel + 1, s =>
    match step s with
    | .cont s' => runLoop step fuel s'
    | .done r => .ok r
    | .fail e => .error e

/-- The byte-by-byte back-reference copy loop of `inflate`
(inflater.hpp lines 543-546): `*(dst++) = *(src++)`. -/
def copyLoop (buf : List Nat) (src dst : Nat) : Nat → List Nat
  | 0 => buf
  | n + 1 => copyLoop (buf.set dst (buf.getD src 0)) (src + 1) (dst + 1) n

/-- The back-reference expansion of `inflate` (lines 538-546): grow the
output by `length` zero bytes (`resize`), then copy forward from
`dst - distance`.  When `distance` exceeds the bytes produced so far the
C++ `src` pointer lies before the buffer and the reads are undefined
behaviour. -/
def backRefCopy (out : List Nat) (distance length : Nat) : Except InfErr (List Nat) :=
  if distance > out.length then .error .undefinedBehavior
  else .ok (copyLoop (out ++ List.replicate length 0)
              (out.length - distance) out.length length)

/-- One iteration of the code-length decoding loop of a dynamic block
(the `codeDecode` lambda, inflater.hpp lines 474-504).  State: the vector
built so far and the stream offset. -/
def codeDecodeStep (data : List Nat) (codeTable : HuffmanTable) (count : Nat)
    (s : List Nat × BitOffset) : StepRes (List Nat × BitOffset) (List Nat × BitOffset) :=
  if s.1.length ≥ count then .done s
  else
    let (code, off) := readHuffmanCode data s.2 codeTable
    if code ≤ 15 then .cont (s.1 ++ [code], off)
    else if code = 16 then
      match s.1.getLast? with
      | none => .fail .undefinedBehavior
      | some last =>
        let (rep, off2) := readBits data off 2
        .cont (s.1 ++ List.replicate (rep + 3) last, off2)
    else if code = 17 then
      let (rep, off2) := readBits data off 3
      .cont (s.1 ++ List.replicate (rep + 3) 0, off2)
    else if code = 18 then
      let (rep, off2) := readBits data off 7
      .cont (s.1 ++ List.replicate (rep + 11) 0, off2)
    else .cont (s.1, off)

/-- The dynamic-Huffman header of a `BTYPE=2` block (inflater.hpp
lines 459-515): read HLIT/HDIST/HCLEN, the permuted code-length code
lengths, build the code-length table, decode the literal/distance code
lengths with it, and build both block tables. -/
def buildDynamic (fuel : Nat) (data : List Nat) (off : BitOffset) :
    Except InfErr (HuffmanTable × HuffmanTable × BitOffset) :=
  let (hlitRaw, o1) := readBits data off 5
  let hlit := hlitRaw + 257
  let (hdistRaw, o2) := readBits data o1 5
  let hdist := hdistRaw + 1
  let (hclenRaw, o3) := readBits data o2 4
  let hclen := hclenRaw + 4
  let permutations : List Nat := [16, 17, 18, 0, 8, 7, 9, 6, 10, 5, 11, 4, 12, 3, 13, 2, 14, 1, 15]
  let st := (List.range hclen).foldl
    (fun (st : List Nat × BitOffset) x =>
      let (v, o) := readBits data st.2 3
      (st.1.set (permutations.getD x 0) v, o))
    (List.replicate 19 0, o3)
  let codeTable := invertTableBits (makeTable st.1)
  match runLoop (codeDecodeStep data codeTable (hlit + hdist)) fuel ([], st.2) with
  | .error e => .error e
  | .ok (lengths, o5) =>
    .ok (invertTableBits (makeTable (lengths.take hlit)),
         invertTableBits (makeTable ((lengths.drop hlit).take hdist)),
         o5)

/-- One iteration of the literal/length decoding loop of a non-stored block
(inflater.hpp lines 518-548). -/
def literalStep (data : List Nat) (lengthTable distanceTable : HuffmanTable)
    (s : List Nat × BitOffset) : StepRes (List Nat × BitOffset) (List Nat × BitOffset) :=
  let (code, off) := readHuffmanCode data s.2 lengthTable
  if code ≤ 255 then .cont (s.1 ++ [code], off)
  else if code = 256 then .done (s.1, off)
  else
    match lengthAlphabet.get? (code - 257) with
    | none => .fail .undefinedBehavior
    | some lengthEntry =>
      let (extra, off2) := readBits data off lengthEntry.extraBits
      let length := lengthEntry.baseLength + extra
      let (distanceCode, off3) := readHuffmanCode data off2 distanceTable
      match distanceAlphabet.get? distanceCode with
      | none => .fail .undefinedBehavior
      | some distanceEntry =>
        let (dextra, off4) := readBits data off3 distanceEntry.extraBits
        let distance := distanceEntry.baseLength + dextra
        match backRefCopy s.1 distance length with
        | .error e => .fail e
        | .ok out => .cont (out, off4)

/-- One iteration of the block loop of `inflate` (lines 427-555).  Note that
the source's `else` branch covers `BTYPE` 1, 2 *and* 3: only `BTYPE == 2`
builds dynamic tables, everything else (including the reserved `BTYPE = 3`)
decodes with the static tables. -/
def blockStep (fuel : Nat) (data : List Nat) (s : List Nat × BitOffset) :
    StepRes (List Nat × BitOffset) (List Nat) :=
  let (bfinal, off1) := readBits data s.2 1
  let (btype, off2) := readBits data off1 2
  if btype = 0 then
    let off3 := roundPosition off2
    let (len, off4) := readBits data off3 16
    let (nlen, off5) := readBits data off4 16
    if (len : Int) ≠ intNotC nlen then .fail .invalidStoredLength
    else if off5.byteOffset + len > data.length then .fail .undefinedBehavior
    else
      let out := s.1 ++ ((data.drop off5.byteOffset).take len)
      if bfinal ≠ 0 then .done out
      else .cont (out, ⟨off5.byteOffset + len, off5.bitOffset⟩)
  else
    let tablesE : Except InfErr (HuffmanTable × HuffmanTable × BitOffset) :=
      if btype = 2 then buildDynamic fuel data off2
      else .ok (staticLengthTable, staticDistanceTable, off2)
    match tablesE with
    | .error e => .fail e
    | .ok (lt, dt, off3) =>
      match runLoop (literalStep data lt dt) fuel (s.1, off3) with
      | .error e => .fail e
      | .ok (out, off4) => if bfinal ≠ 0 then .done out else .cont (out, off4)

/-- `inflate` (inflater.hpp lines 380-560): zlib header checks followed by
the fuelled block loop. -/
def inflate (fuel : Nat) (input : List Nat) : Except InfErr (List Nat) :=
  let (cm, o1) := readBits input ⟨0, 0⟩ 4
  let (cinfo, o2) := readBits input o1 4
  if cm ≠ 8 then .error .unsupportedMethod
  else if cinfo > 7 then .error .invalidWindow
  else
    let (fcheck, o3) := readBits input o2 5
    let (fdict, o4) := readBits input o3 1
    let (flevel, o5) := readBits input o4 2
    let cmf := (cinfo <<< 4) ||| cm
    let flg := (flevel <<< 6) ||| (fdict <<< 5) ||| fcheck
    if fdict ≠ 0 then .error .dictUnsupported
    else if (cmf * 256 + flg) % 31 ≠ 0 then .error .fcheckFail
    else runLoop (blockStep fuel input) fuel ([], o5)

/-- Big-endian 32-bit read of the first four entries of a byte list
(`readInt<uint32_t>` byteswap semantics). -/
def readU32BE (bytes : List Nat) : Nat :=
  bytes.getD 0 0 * 16777216 + bytes.getD 1 0 * 65536 +
  bytes.getD 2 0 * 256 + bytes.getD 3 0

/-- `PngChunk` (png-parser.cpp lines 71-77).  `length` stores the raw
big-endian 32-bit value; values `≥ 2^31` are negative in the C++
`std::int32_t` field. -/
structure PngChunk where
  length : Nat
  type : List Nat
  data : List Nat
  crc : Nat
deriving Repr, DecidableEq

def ihdrType : List Nat := [0x49, 0x48, 0x44, 0x52]

def idatType : List Nat := [0x49, 0x44, 0x41, 0x54]

def iendType : List Nat := [0x49, 0x45, 0x4E, 0x44]

def plteType : List Nat := [0x50, 0x4C, 0x54, 0x45]

def trnsType : List Nat := [0x74, 0x52, 0x4E, 0x53]

/-- The chunk-reading loop of `readPng` (png-parser.cpp lines 180-192):
read `length`/`type`/`data`/`crc` records until `IEND` or end of stream.
A negative length (a `resize` with a negative count) and a truncated chunk
(the C++ istream reads fail and leave garbage) are modelled as `none`.
Each chunk consumes at least 12 input bytes, so the structural `fuel`
parameter (`bytes.length + 1` at the call site) never runs out. -/
def readChunksGo : Nat → List Nat → Option (List PngChunk)
  | 0, _ => none
  | fuel + 1, bytes =>
    if bytes.length = 0 then some []
    else if bytes.length < 12 then none
    else
      let len := readU32BE (bytes.take 4)
      if len ≥ 2 ^ 31 then none
      else if bytes.length < 12 + len then none
      else
        let chunk : PngChunk :=
          ⟨len, (bytes.drop 4).take 4, (bytes.drop 8).take len,
           readU32BE ((bytes.drop (8 + len)).take 4)⟩
        if chunk.type = iendType then some [chunk]
        else
          match readChunksGo fuel (bytes.drop (12 + len)) with
          | none => none
          | some rest => some (chunk :: rest)

/-- The chunk loop with enough fuel for its input. -/
def readChunks (bytes : List Nat) : Option (List PngChunk) :=
  readChunksGo (bytes.length + 1) bytes

/-- `PngInfo` (png-parser.cpp lines 91-100). -/
structure PngInfo where
  width : Nat
  height : Nat
  depth : Nat
  colorType : Nat
  compression : Nat
  filterMethod : Nat
  interlace : Nat
deriving Repr, DecidableEq

/-- `readHeaderChunk` (png-parser.cpp lines 102-164): IHDR validation. -/
def readHeaderChunk (chunk : PngChunk) : Option PngInfo :=
  if chunk.type ≠ ihdrType then none
  else if chunk.length ≠ 13 then none
  else
    let d := chunk.data
    let info : PngInfo :=
      ⟨readU32BE (d.take 4), readU32BE ((d.drop 4).take 4),
       d.getD 8 0, d.getD 9 0, d.getD 10 0, d.getD 11 0, d.getD 12 0⟩
    if info.width = 0 ∨ info.height = 0 then none
    else if info.depth ≠ 1 ∧ info.depth ≠ 2 ∧ info.depth ≠ 4 ∧
            info.depth ≠ 8 ∧ info.depth ≠ 16 then none
    else if info.colorType ≠ 0 ∧ info.colorType ≠ 2 ∧ info.colorType ≠ 3 ∧
            info.colorType ≠ 4 ∧ info.colorType ≠ 6 then none
    else if info.compression ≠ 0 then none
    else if info.filterMethod ≠ 0 then none
    else if info.interlace ≠ 0 ∧ info.interlace ≠ 1 then none
    else some info

/-- The accumulator of the chunk-classification loop of `readPng`
(png-parser.cpp lines 209-252): palette tables, transparency key, and the
concatenated IDAT payloads. -/
structure ChunkAccum where
  paletteR : List Nat
  paletteG : List Nat
  paletteB : List Nat
  paletteA : List Nat
  transR : Option Nat
  transG : Option Nat
  transB : Option Nat
  compressedData : List Nat
deriving Repr, DecidableEq

/-- Initial accumulator: zeroed palettes with alpha filled to 255. -/
def initAccum : ChunkAccum :=
  ⟨List.replicate 256 0, List.replicate 256 0, List.replicate 256 0,
   List.replicate 256 255, none, none, none, []⟩

/-- The PLTE copy loop (png-parser.cpp lines 228-233).  An entry count above
256 would index the 256-byte `std::array`s out of bounds. -/
def readPalette (acc : ChunkAccum) (chunk : PngChunk) : Option ChunkAccum :=
  if chunk.length / 3 > 256 then none
  else some ((List.range (chunk.length / 3)).foldl
    (fun a x =>
      { a with
        paletteR := a.paletteR.set x (chunk.data.getD (x * 3) 0),
        paletteG := a.paletteG.set x (chunk.data.getD (x * 3 + 1) 0),
        paletteB := a.paletteB.set x (chunk.data.getD (x * 3 + 2) 0) })
    acc)

/-- One step of the chunk-classification loop of `readPng` (lines 220-252).
The tRNS reads dereference fixed offsets of the chunk payload; reads past
the payload (and a tRNS longer than the 256-entry alpha array for colour
type 3) are undefined behaviour, modelled as `none`. -/
def processChunk (info : PngInfo) (acc : ChunkAccum) (chunk : PngChunk) :
    Option ChunkAccum :=
  if chunk.type = idatType then
    some { acc with compressedData := acc.compressedData ++ chunk.data }
  else if chunk.type = plteType then
    readPalette acc chunk
  else if chunk.type = trnsType then
    if info.colorType = 0 then
      if chunk.data.length < 2 then none
      else some { acc with transR := some (chunk.data.getD 0 0 * 256 + chunk.data.getD 1 0) }
    else if info.colorType = 2 then
      if chunk.data.length < 6 then none
      else some { acc with
        transR := some (chunk.data.getD 0 0 * 256 + chunk.data.getD 1 0),
        transG := some (chunk.data.getD 2 0 * 256 + chunk.data.getD 3 0),
        transB := some (chunk.data.getD 4 0 * 256 + chunk.data.getD 5 0) }
    else if info.colorType = 3 then
      if chunk.data.length > 256 then none
      else some { acc with
        paletteA := chunk.data ++ acc.paletteA.drop chunk.data.length }
    else some acc
  else some acc

/-- The whole chunk-classification loop. -/
def processChunks (info : PngInfo) (chunks : List PngChunk) : Option ChunkAccum :=
  chunks.foldlM (processChunk info) initAccum

/-- The Adam7 `starting_row` array of `readPng` (png-parser.cpp line 262). -/
def starting_row : List Nat := [0, 0, 4, 0, 2, 0, 1]

/-- The Adam7 `starting_col` array (line 263). -/
def starting_col : List Nat := [0, 4, 0, 2, 0, 1, 0]

/-- The Adam7 `row_increment` array (line 264). -/
def row_increment : List Nat := [8, 8, 8, 4, 4, 2, 2]

/-- The Adam7 `col_increment` array (line 265). -/
def col_increment : List Nat := [8, 8, 4, 4, 2, 2, 1]

/-- The channel count per colour type (png-parser.cpp lines 269-281). -/
def channelsOf (colorType : Nat) : Nat :=
  if colorType = 2 then 3 else if colorType = 4 then 2
  else if colorType = 6 then 4 else 1

/-- `bpp = ceil(channels * depth / 8.f)` (line 290); the float arithmetic is
exact for every reachable operand, so this is the integer ceiling. -/
def bppOf (channels depth : Nat) : Nat := (channels * depth + 7) / 8

/-- The `scaleTable` (line 298). -/
def scaleTable : List Nat := [0, 0xff, 0x55, 0, 0x11, 0, 0, 0, 0x01]

/-- `rawImageWidth` (png-parser.cpp lines 307-315): bytes per scanline of a
(sub-)image `width` pixels wide. -/
def rawImageWidth (channels depth bytePerChannel width : Nat) : Nat :=
  if depth < 8 then (channels * depth * width + 7) / 8
  else channels * width * bytePerChannel

/-- The Paeth predictor of the `unfilter` lambda (png-parser.cpp
lines 354-371), computed on C++ `int`s. -/
def paethPredict (a b c : Nat) : Nat :=
  let p : Int := (a : Int) + (b : Int) - (c : Int)
  let pa := (p - a).natAbs
  let pb := (p - b).natAbs
  let pc := (p - c).natAbs
  if pa ≤ pb ∧ pa ≤ pc then a else if pb ≤ pc then b else c

/-- The body of the `unfilter` lambda (png-parser.cpp lines 317-377) minus
the write: recover the raw byte at `(x, y)` from the filtered byte `byte`,
reading the predictors `a`, `b`, `c` from the partially reconstructed pass
buffer `data` (out-of-bounds predictors are 0).  The accumulations are on a
`uint8_t`, whence the `% 256`. -/
def unfilterByte (bpp : Nat) (data : List Nat) (filterId x y lineWidth : Nat)
    (byte : Nat) : Nat :=
  let a := if x ≥ bpp then data.getD (x - bpp + y * lineWidth) 0 else 0
  let b := if y ≥ 1 then data.getD (x + (y - 1) * lineWidth) 0 else 0
  let c := if x ≥ bpp ∧ y ≥ 1 then data.getD (x - bpp + (y - 1) * lineWidth) 0 else 0
  if filterId = 1 then (byte + a) % 256
  else if filterId = 2 then (byte + b) % 256
  else if filterId = 3 then (byte + (a + b) / 2) % 256
  else if filterId = 4 then (byte + paethPredict a b c) % 256
  else byte

/-- The per-scanline loops of `readRawImage` (png-parser.cpp lines 383-393):
for each scanline read the filter byte, then unfilter `lineWidth` bytes in
place.  State: the pass buffer and the `pos` cursor into the decompressed
data (`nextByte`). -/
def unfilterStep (dec : List Nat) (bpp lineWidth y filterId : Nat)
    (st2 : List Nat × Nat) (x : Nat) : List Nat × Nat :=
  let byte := dec.getD st2.2 0
  (st2.1.set (x + y * lineWidth) (unfilterByte bpp st2.1 filterId x y lineWidth byte),
   st2.2 + 1)

/-- One scanline: read the filter byte, then unfilter `lineWidth` bytes. -/
def unfilterLine (dec : List Nat) (bpp lineWidth : Nat)
    (st : List Nat × Nat) (y : Nat) : List Nat × Nat :=
  let filterId := dec.getD st.2 0
  (List.range lineWidth).foldl (unfilterStep dec bpp lineWidth y filterId) (st.1, st.2 + 1)

def unfilterPass (dec : List Nat) (bpp lineWidth height : Nat)
    (st0 : List Nat × Nat) : List Nat × Nat :=
  (List.range height).foldl (unfilterLine dec bpp lineWidth) st0

/-- State of the scatter loops of `readRawImage` (png-parser.cpp
lines 414-459): the output image, the pass buffer (mutated in place by the
sub-byte unpacking `*passByte <<= depth`), the `passByte` cursor `p`, the
within-byte sample counter `i`, and a ghost trace of the destination byte
indices written, in order (the trace does not influence the run). -/
structure ScatterState where
  img : List Nat
  passBuf : List Nat
  p : Nat
  i : Nat
  writes : List Nat
deriving Repr, DecidableEq

/-- The innermost `for (x = 0; x < channels * bytePerChannel; x++)` loop of
the scatter (lines 426-447), for one visited `(col, row)` position. -/
def scatterByte (depth scale bpp lbw pPerB : Nat) (col row : Nat)
    (st : ScatterState) (x : Nat) : ScatterState :=
  let dest := col * bpp + row * lbw + x
  if depth ≥ 8 then
    { st with img := st.img.set dest (st.passBuf.getD st.p 0),
              p := st.p + 1,
              writes := st.writes ++ [dest] }
  else
    let sample := (scale * (st.passBuf.getD st.p 0 >>> (8 - depth))) % 256
    let img := st.img.set dest sample
    let passBuf := st.passBuf.set st.p ((st.passBuf.getD st.p 0 <<< depth) % 256)
    if st.i + 1 = pPerB then ⟨img, passBuf, st.p + 1, 0, st.writes ++ [dest]⟩
    else ⟨img, passBuf, st.p, st.i + 1, st.writes ++ [dest]⟩

/-- The innermost channel-byte loop for one visited `(col, row)` position. -/
def scatterBody (depth scale bpp lbw chanBytes pPerB : Nat) (col row : Nat)
    (st : ScatterState) : ScatterState :=
  (List.range chanBytes).foldl (scatterByte depth scale bpp lbw pPerB col row) st

/-- The `while (col < pngInfo->width)` loop of the scatter (lines 423-450). -/
def scatterColLoop (depth scale bpp lbw chanBytes pPerB row strideX W : Nat) :
    Nat → Nat → ScatterState → ScatterState
  | 0, _, st => st
  | fuel + 1, col, st =>
    if col < W then
      scatterColLoop depth scale bpp lbw chanBytes pPerB row strideX W fuel
        (col + strideX) (scatterBody depth scale bpp lbw chanBytes pPerB col row st)
    else st

/-- The `while (row < pngInfo->height)` loop of the scatter (lines 420-459),
including the end-of-row byte flush (`if (i != 0) { passByte++; i = 0; }`). -/
def scatterRowLoop (depth scale bpp lbw chanBytes pPerB startX strideX strideY W H : Nat) :
    Nat → Nat → ScatterState → ScatterState
  | 0, _, st => st
  | fuel + 1, row, st =>
    if row < H then
      let st1 := scatterColLoop depth scale bpp lbw chanBytes pPerB row strideX W
        (W + 1) startX st
      let st2 := if st1.i ≠ 0 then { st1 with p := st1.p + 1, i := 0 } else st1
      scatterRowLoop depth scale bpp lbw chanBytes pPerB startX strideX strideY W H
        fuel (row + strideY) st2
    else st

/-- `readRawImage` (png-parser.cpp lines 379-460): unfilter the pass into its
buffer, then scatter its samples into the output image.  Returns the new
image, the advanced `pos` cursor, and (ghost) the write trace. -/
def readRawImage (dec : List Nat) (channels depth bytePerChannel bpp lbw scale W H : Nat)
    (img passBuf : List Nat) (pos width height startX startY strideX strideY : Nat) :
    List Nat × Nat × List Nat :=
  let byteWidth := rawImageWidth channels depth bytePerChannel width
  let (buf, pos2) := unfilterPass dec bpp byteWidth height (passBuf, pos)
  let pPerB := min width (8 / depth)
  let stF := scatterRowLoop depth scale bpp lbw (channels * bytePerChannel) pPerB
    startX strideX strideY W H (H + 1) startY ⟨img, buf, 0, 0, []⟩
  (stF.img, pos2, stF.writes)

/-- `uint32` subtraction with wraparound, for the pass-dimension computation
`pngInfo->width - starting_col[pass]` (png-parser.cpp line 474), which wraps
modulo `2^32` when the start offset exceeds the image dimension. -/
def u32sub (a b : Nat) : Nat := (a + 2 ^ 32 - b % 2 ^ 32) % 2 ^ 32

/-- The per-pass sub-image dimension `(dim - start + stride - 1) / stride`
computed in `uint32` arithmetic (png-parser.cpp lines 474-475). -/
def passDim (dim start stride : Nat) : Nat :=
  ((u32sub dim start + stride - 1) % 2 ^ 32) / stride

/-- The depth-16 high-byte compaction loop (png-parser.cpp lines 495-501):
`data[x] = ((uint16_t*)data)[x] & 0xFF` on a little-endian host keeps byte
`2x`, the big-endian high byte of sample `x`. -/
def truncate16 (count : Nat) (img : List Nat) : List Nat :=
  (List.range count).foldl (fun im x => im.set x (im.getD (2 * x) 0)) img

/-- The indexed-colour promotion loop (png-parser.cpp lines 503-518),
iterating from the last pixel backwards, reading the palette index from the
current buffer and writing the RGBA quad over it. -/
def promoteIndexed (n : Nat) (pR pG pB pA : List Nat) (img : List Nat) : List Nat :=
  (List.range n).foldl
    (fun im x =>
      let inIdx := n - 1 - x
      let o := 4 * (n - 1 - x)
      let idx := im.getD inIdx 0
      ((((im.set (o + 3) (pA.getD idx 0)).set (o + 2) (pB.getD idx 0)).set
          (o + 1) (pG.getD idx 0)).set o (pR.getD idx 0)))
    img

/-- The grayscale promotion loop (png-parser.cpp lines 521-537). -/
def promoteGray (n : Nat) (img : List Nat) : List Nat :=
  (List.range n).foldl
    (fun im x =>
      let inIdx := n - 1 - x
      let o := 4 * (n - 1 - x)
      let byte := im.getD inIdx 0
      ((((im.set (o + 3) 0xff).set (o + 2) byte).set (o + 1) byte).set o byte))
    img

/-- The gray+alpha promotion loop (png-parser.cpp lines 539-556). -/
def promoteGrayAlpha (n : Nat) (img : List Nat) : List Nat :=
  (List.range n).foldl
    (fun im x =>
      let inIdx := 2 * (n - 1 - x)
      let o := 4 * (n - 1 - x)
      let color := im.getD inIdx 0
      let alpha := im.getD (inIdx + 1) 0
      ((((im.set (o + 3) alpha).set (o + 2) color).set (o + 1) color).set o color))
    img

/-- The RGB promotion loop (png-parser.cpp lines 558-574): writes `out[3]`
first, then reads `in[2]`, `in[1]`, `in[0]` from the current buffer. -/
def promoteRGB (n : Nat) (img : List Nat) : List Nat :=
  (List.range n).foldl
    (fun im x =>
      let inIdx := 3 * (n - 1 - x)
      let o := 4 * (n - 1 - x)
      let im1 := im.set (o + 3) 0xff
      let im2 := im1.set (o + 2) (im1.getD (inIdx + 2) 0)
      let im3 := im2.set (o + 1) (im2.getD (inIdx + 1) 0)
      im3.set o (im3.getD inIdx 0))
    img

/-- The single tRNS key normalisation of `readPng` (png-parser.cpp
lines 578-599): multiply by the scale for depth < 8 (`uint16_t`, so modulo
`2^16`), shift right by 8 for depth 16, leave the full 16-bit key
otherwise. -/
def normalizeKey (depth scale key : Nat) : Nat :=
  if depth < 8 then (key * scale) % 65536
  else if depth = 16 then key >>> 8
  else key

/-- The colour-type-0 transparency loop (png-parser.cpp lines 601-614):
any pixel whose (promoted) gray byte equals the normalised key gets
alpha 0. -/
def colorKey0Loop (n tR : Nat) (img : List Nat) : List Nat :=
  (List.range n).foldl
    (fun im x => if im.getD (4 * x) 0 = tR then im.set (4 * x + 3) 0 else im)
    img

/-- The colour-type-2 transparency loop (png-parser.cpp lines 615-627):
alpha 0 exactly when all three channels match the normalised keys. -/
def colorKey2Loop (n tR tG tB : Nat) (img : List Nat) : List Nat :=
  (List.range n).foldl
    (fun im x =>
      if im.getD (4 * x) 0 = tR ∧ im.getD (4 * x + 1) 0 = tG ∧
         im.getD (4 * x + 2) 0 = tB
      then im.set (4 * x + 3) 0 else im)
    img

/-- The decoded image returned by `readPng` (an `sf::Image` of
`width × height` RGBA bytes). -/
structure PngImage where
  width : Nat
  height : Nat
  pixels : List Nat
deriving Repr, DecidableEq

/-- The raster stage of `readPng` after inflation (png-parser.cpp
lines 262-636): pass reconstruction, 16-bit truncation, channel promotion
and transparency keying. -/
def rasterize (info : PngInfo) (acc : ChunkAccum) (dec : List Nat) : PngImage :=
  let W := info.width
  let H := info.height
  let channels := channelsOf info.colorType
  let depth := info.depth
  let bytePerChannel := if depth = 16 then 2 else 1
  let bpp := bppOf channels depth
  let lbw := W * bpp
  let outputSize := W * H * 4
  let imageData : List Nat := List.replicate (max outputSize (lbw * H)) 0
  let scale := if info.colorType = 3 then 1 else scaleTable.getD depth 0
  let img1 :=
    if info.interlace = 0 then
      (readRawImage dec channels depth bytePerChannel bpp lbw scale W H
        imageData imageData 0 W H 0 0 1 1).1
    else
      ((List.range 7).foldl
        (fun (st : List Nat × Nat) pass =>
          let strideX := col_increment.getD pass 0
          let strideY := row_increment.getD pass 0
          let startX := starting_col.getD pass 0
          let startY := starting_row.getD pass 0
          let passX := passDim W startX strideX
          let passY := passDim H startY strideY
          if passX = 0 ∨ passY = 0 then st
          else
            let passSize := rawImageWidth channels depth bytePerChannel passX * passY
            let r := readRawImage dec channels depth bytePerChannel bpp lbw scale W H
              st.1 (List.replicate passSize 0) st.2 passX passY startX startY strideX strideY
            (r.1, r.2.1))
        (imageData, 0)).1
  let img2 := if depth = 16 then truncate16 (W * H * channels) img1 else img1
  let img3 :=
    if info.colorType = 3 then
      promoteIndexed (W * H) acc.paletteR acc.paletteG acc.paletteB acc.paletteA img2
    else if channels = 1 then promoteGray (W * H) img2
    else if channels = 2 then promoteGrayAlpha (W * H) img2
    else if channels = 3 then promoteRGB (W * H) img2
    else img2
  let img4 :=
    match acc.transR with
    | none => img3
    | some tR =>
      let tR := normalizeKey depth scale tR
      if info.colorType = 0 then colorKey0Loop (W * H) tR img3
      else if info.colorType = 2 then
        colorKey2Loop (W * H) tR
          (normalizeKey depth scale (acc.transG.getD 0))
          (normalizeKey depth scale (acc.transB.getD 0)) img3
      else img3
  ⟨W, H, img4.take (4 * W * H)⟩

/-- The PNG signature (png-parser.cpp line 168). -/
def pngSignature : List Nat := [0x89, 0x50, 0x4E, 0x47, 0x0D, 0x0A, 0x1A, 0x0A]

/-- `readPng` (png-parser.cpp lines 166-637): signature check, chunk
framing, IHDR validation, chunk classification, inflation of the
concatenated IDAT payloads, and rasterization. -/
def readPng (fuel : Nat) (bytes : List Nat) : Option PngImage :=
  if bytes.take 8 ≠ pngSignature then none
  else
    match readChunks (bytes.drop 8) with
    | none => none
    | some chunks =>
      match chunks with
      | [] => none
      | firstChunk :: _ =>
        match readHeaderChunk firstChunk with
        | none => none
        | some info =>
          match processChunks info chunks with
          | none => none
          | some acc =>
            match inflate fuel acc.compressedData with
            | .error _ => none
            | .ok dec => some (rasterize info acc dec)

/-! ## Concrete inflate inputs used by the claim theorems -/

/-- A zlib stream holding one well-formed stored block: header `78 01`,
`BFINAL=1`, `BTYPE=00`, `LEN = 1`, `NLEN = 0xFFFE` (the ones complement of
`LEN`), and one data byte `0xAB`.  RFC 1951 accepts it with output `[0xAB]`. -/
def storedBlockInput : List Nat := [0x78, 0x01, 0x01, 0x01, 0x00, 0xFE, 0xFF, 0xAB]

/-- A zlib stream whose single block has `BFINAL=1` and the reserved
`BTYPE=11`, followed by the 7 zero bits that decode to the fixed-table
end-of-block symbol 256. -/
def btype3Input : List Nat := [0x78, 0x01, 0x07, 0x00]

/-- A zlib stream whose single fixed-Huffman block immediately encodes the
length/distance pair (3, 1) while the output is still empty: the
back-reference distance exceeds the bytes produced so far. -/
def badDistanceInput : List Nat := [0x78, 0x01, 0x03, 0x02, 0x00]

/-- A zlib stream declaring a dynamic block whose 19 code-length code
lengths are all zero: `makeTable` then produces the degenerate one-slot
table `{0, 0}` and every `readHuffmanCode` yields symbol 0 after consuming
zero bits. -/
def degenerateDynamicInput : List Nat := [0x78, 0x01, 0x05, 0x00, 0x00, 0x00]

/-- The normalisation claim C4 ascribes to the code, following the claim's
words: the key is normalised "once to 8-bit width (key*scale for depth<8,
key>>8 for depth=16, the key's low byte otherwise)".  Compare with
`normalizeKey`, the normalisation the code actually performs (which keeps
the full 16-bit key at depth 8 and reduces modulo `2^16` below depth 8). -/
def claimNormKey (depth scale key : Nat) : Nat :=
  if depth < 8 then key * scale
  else if depth = 16 then key >>> 8
  else key % 256

/-- A 1x1 colour-type-2 depth-8 PNG whose single pixel is (2,2,2) and whose
tRNS chunk stores the key triple (0x0102, 0x0102, 0x0102): each stored key
has low byte 2 but is not itself 2. -/
def trnsKeyPng : List Nat :=
  [0x89, 0x50, 0x4E, 0x47, 0x0D, 0x0A, 0x1A, 0x0A] ++
  ([0, 0, 0, 13] ++ [0x49, 0x48, 0x44, 0x52] ++
   [0, 0, 0, 1, 0, 0, 0, 1, 8, 2, 0, 0, 0] ++ [0, 0, 0, 0]) ++
  ([0, 0, 0, 6] ++ [0x74, 0x52, 0x4E, 0x53] ++
   [1, 2, 1, 2, 1, 2] ++ [0, 0, 0, 0]) ++
  ([0, 0, 0, 8] ++ [0x49, 0x44, 0x41, 0x54] ++
   [0x78, 0x01, 0x63, 0x60, 0x62, 0x62, 0x02, 0x00] ++ [0, 0, 0, 0]) ++
  ([0, 0, 0, 0] ++ [0x49, 0x45, 0x4E, 0x44] ++ [0, 0, 0, 0])

/-- A 1x1 colour-type-3 (indexed) depth-8 PNG with no PLTE chunk; its one
pixel has palette index 0. -/
def noPalettePng : List Nat :=
  [0x89, 0x50, 0x4E, 0x47, 0x0D, 0x0A, 0x1A, 0x0A] ++
  ([0, 0, 0, 13] ++ [0x49, 0x48, 0x44, 0x52] ++
   [0, 0, 0, 1, 0, 0, 0, 1, 8, 3, 0, 0, 0] ++ [0, 0, 0, 0]) ++
  ([0, 0, 0, 6] ++ [0x49, 0x44, 0x41, 0x54] ++
   [0x78, 0x01, 0x63, 0x60, 0x00, 0x00] ++ [0, 0, 0, 0]) ++
  ([0, 0, 0, 0] ++ [0x49, 0x45, 0x4E, 0x44] ++ [0, 0, 0, 0])

/-- A default chunk value for list indexing. -/
def emptyChunk : PngChunk := ⟨0, [], [], 0⟩

/-- The Adam7 start/stride table exactly as the claim (and spec table 4.G)
states it: per pass, `(startX, startY)` and `(strideX, strideY)`. -/
def adam7StartX : List Nat := [0, 4, 0, 2, 0, 1, 0]

def adam7StartY : List Nat := [0, 0, 4, 0, 2, 0, 1]

def adam7StrideX : List Nat := [8, 8, 4, 4, 2, 2, 1]

def adam7StrideY : List Nat := [8, 8, 8, 4, 4, 2, 2]

/-- The Paeth predictor exactly as the claim words it. -/

def claimPaeth (a b c : Nat) : Nat :=
  let p : Int := (a : Int) + (b : Int) - (c : Int)
  let pa := (p - a).natAbs
  let pb := (p - b).natAbs
  let pc := (p - c).natAbs
  if pa ≤ pb ∧ pa ≤ pc then a else if pb ≤ pc then b else c

/-- The claim's left predictor `a = raw(x - bpp, y)`, 0 out of bounds. -/
def claimA (buf : List Nat) (bpp w x y : Nat) : Nat :=
  if bpp ≤ x then buf.getD (x - bpp + y * w) 0 else 0

/-- The claim's up predictor `b = raw(x, y - 1)`, 0 out of bounds. -/
def claimB (buf : List Nat) (w x y : Nat) : Nat :=
  if 1 ≤ y then buf.getD (x + (y - 1) * w) 0 else 0

/-- The claim's up-left predictor `c = raw(x - bpp, y - 1)`, 0 out of bounds. -/
def claimC (buf : List Nat) (bpp w x y : Nat) : Nat :=
  if bpp ≤ x ∧ 1 ≤ y then buf.getD (x - bpp + (y - 1) * w) 0 else 0

/-- The claim's recovery table: `fb`, `fb+a`, `fb+b`, `fb+floor((a+b)/2)`,
`fb+Paeth(a,b,c)`, all modulo 256. -/
def claimRecover (f fb a b c : Nat) : Nat :=
  if f = 0 then fb
  else if f = 1 then (fb + a) % 256
  else if f = 2 then (fb + b) % 256
  else if f = 3 then (fb + (a + b) / 2) % 256
  else (fb + claimPaeth a b c) % 256

/-- The degenerate one-slot zero-bits table produced by `makeTable` on an
all-zero length vector. -/
def degenerateTable : HuffmanTable := ⟨[⟨0, 0⟩], 0⟩

/-! ## Canonical Huffman round-trip: spec-side definitions (claim C9) -/

/-- Bit `i` of the LSB-first bit stream held in `data`; bits past the end
read as 0 (matching `readBits`). -/
def bitAt (data : List Nat) (i : Nat) : Nat :=
  (data.getD (i / 8) 0 >>> (i % 8)) % 2

/-- The value of `count` stream bits starting at bit position `pos`,
accumulated LSB-first (first bit = least significant), as `readBits`
builds it. -/
def bitsVal (data : List Nat) (pos : Nat) : Nat → Nat
  | 0 => 0
  | c + 1 => bitAt data pos + 2 * bitsVal data (pos + 1) c

/-- The value of `count` stream bits starting at `pos`, MSB-first (first
bit = most significant): the prefix-code reading order. -/
def msbVal (data : List Nat) (pos : Nat) : Nat → Nat
  | 0 => 0
  | c + 1 => bitAt data pos * 2 ^ c + msbVal data (pos + 1) c

/-- The standard `m`-bit reversal: the low bit of `v` becomes bit `m-1`. -/
def revBits : Nat → Nat → Nat
  | 0, _ => 0
  | t + 1, v => (v % 2) * 2 ^ t + revBits t (v / 2)

/-- Number of binary digits of `v` (the iteration count of the
`while (v)` loop of `reverseBits`). -/
def bitLen : Nat → Nat
  | 0 => 0
  | v + 1 => bitLen ((v + 1) / 2) + 1
decreasing_by simp_wf; omega

/-- `maxLength` of `makeTable`. -/
def maxLenOf (lengths : List Nat) : Nat := lengths.foldl max 0

/-- The canonical first-code recurrence without the `uint16_t` truncation. -/
def fcR (lengths : List Nat) : Nat → Nat
  | 0 => 0
  | L + 1 => (fcR lengths L + lengthCount lengths L) * 2

/-- Number of symbols before `x` whose code length is `L`. -/
def countBelow (lengths : List Nat) (x L : Nat) : Nat := (lengths.take x).count L

/-- Code length assigned to symbol `s`. -/
def symLen (lengths : List Nat) (s : Nat) : Nat := lengths.getD s 0

/-- The canonical code of symbol `s` (RFC 1951 ordering: by length, then by
symbol index). -/
def codeOfSym (lengths : List Nat) (s : Nat) : Nat :=
  fcR lengths (symLen lengths s) + countBelow lengths s (symLen lengths s)

/-- The left-justified slot of symbol `s` in the `makeTable` decode table. -/
def ljSlot (lengths : List Nat) (s : Nat) : Nat :=
  codeOfSym lengths s * 2 ^ (maxLenOf lengths - symLen lengths s)

/-- Partial Kraft sum over code lengths `< L`, weighted to `maxLenOf` bits. -/
def kraftPS (lengths : List Nat) (L : Nat) : Nat :=
  ∑ j ∈ Finset.range L, lengthCount lengths j * 2 ^ (maxLenOf lengths - j)

/-- A valid canonical prefix code: lengths fit the `uint16_t` machinery
(≤ 15, as in DEFLATE) and the Kraft inequality holds. -/
def ValidLengths (lengths : List Nat) : Prop :=
  (∀ l ∈ lengths, l ≤ 15) ∧
  kraftPS lengths (maxLenOf lengths + 1) ≤ 2 ^ maxLenOf lengths

/-- The state of the `makeTable` placement loop after the first `x` symbols. -/
def placeState (lengths : List Nat) (x : Nat) : List Nat × List HuffmanCode :=
  (List.range x).foldl (placeStep lengths (maxLenOf lengths))
    ((List.range (maxLenOf lengths + 1)).map (firstCode lengths),
     List.replicate (2 ^ maxLenOf lengths) ⟨0, 0⟩)

/-- The `L` bits of canonical code `c`, most significant first. -/
def msbBits (L c : Nat) : List Nat :=
  (List.range L).map (fun t => (c >>> (L - 1 - t)) % 2)

/-- Concatenated canonical encoding of a symbol sequence. -/
def encodeSyms (lengths : List Nat) : List Nat → List Nat
  | [] => []
  | s :: rest => msbBits (symLen lengths s) (codeOfSym lengths s) ++ encodeSyms lengths rest

/-- Value of a bit list, first element least significant. -/
def natOfBits : List Nat → Nat
  | [] => 0
  | b :: rest => b + 2 * natOfBits rest

/-- Pack a bit list into bytes, LSB-first inside each byte (the bit order
`BitStream::readBits` consumes). -/
def packBits (bits : List Nat) : List Nat :=
  (List.range ((bits.length + 7) / 8)).map (fun j => natOfBits ((bits.drop (8 * j)).take 8))

/-- Iterated `readHuffmanCode`: decode `k` symbols starting at `off`. -/
def decodeSyms (data : List Nat) (tbl : HuffmanTable) : Nat → BitOffset → List Nat × BitOffset
  | 0, off => ([], off)
  | k + 1, off =>
    let (c, off2) := readHuffmanCode data off tbl
    let (rest, off3) := decodeSyms data tbl k off2
    (c :: rest, off3)

/-! ## Claim theorems -/

/-- C1: the claim states that `inflate` accepts a stored block whose 16-bit
`LEN` equals the ones complement of `NLEN` and appends its `LEN` raw bytes,
rejecting only on a mismatch.  The code instead rejects *every* stored
block: in `LEN != ~NLEN` both `uint16_t` operands are promoted to `int`, so
`~NLEN` is the negative value `-(NLEN+1)` and can never equal the
non-negative `LEN`.  On the well-formed stored block `storedBlockInput`
(`LEN = 1 = ~NLEN & 0xFFFF`) the decoder fails instead of producing
`[0xAB]`; the second conjunct shows the comparison fails for all field
values. -/
theorem c1_stored_block_always_rejected :
    inflate 1000 storedBlockInput = .error .invalidStoredLength ∧
    ∀ len nlen : Nat, (len : Int) ≠ intNotC nlen := by
  refine ⟨rfl, fun len nlen => ?_⟩
  unfold intNotC
  omega

/-- C2: the claim states that a block with the reserved `BTYPE=11` makes
`inflate` fail with no output.  The code's `else` branch treats every
non-zero `BTYPE` other than 2 as a fixed-Huffman block, so `btype3Input` —
whose single block has `BTYPE = 3` (second conjunct: the two bits at stream
offset 17 read as 3) — is decoded successfully as a fixed block with empty
output instead of failing. -/
theorem c2_btype3_decoded_as_fixed :
    (readBits btype3Input ⟨2, 1⟩ 2).1 = 3 ∧
    inflate 1000 btype3Input = .ok [] := by
  exact ⟨rfl, rfl⟩

/-- C5: the claim states that a back-reference distance greater than the
output produced so far makes `inflate` fail with an error and that it never
reads before the start of the output buffer.  The code performs no such
check: on `badDistanceInput` it decodes the pair (length 3, distance 1)
with the output still empty and dereferences `src = dst - 1`, one byte
before the start of the output vector — undefined behaviour, surfaced by
the model as `undefinedBehavior` rather than any deliberate error. -/
theorem c5_unchecked_distance_reads_out_of_bounds :
    inflate 1000 badDistanceInput = .error .undefinedBehavior ∧
    backRefCopy [] 1 3 = .error .undefinedBehavior := by
  exact ⟨rfl, rfl⟩

/-! ## Generic list-access helper lemmas -/

/-- `getD` after `set` at a different index. -/
theorem getD_set_ne {α : Type} (l : List α) {i j : Nat} (v d : α) (h : i ≠ j) :
    (l.set i v).getD j d = l.getD j d := by
  simp [List.getD, List.getElem?_set_ne h]

/-- `getD` after `set` at the same (in-bounds) index. -/
theorem getD_set_self {α : Type} (l : List α) {i : Nat} (v d : α) (h : i < l.length) :
    (l.set i v).getD i d = v := by
  simp [List.getD, List.getElem?_set_self, h]

/-! ## Properties of the back-reference copy (claim C8) -/

/-- `copyLoop` preserves the buffer length. -/
theorem copyLoop_length (n : Nat) : ∀ buf src dst : _,
    (copyLoop buf src dst n).length = (buf : List Nat).length := by
  induction n with
  | zero => intro buf src dst; rfl
  | succ n ih =>
    intro buf src dst
    simp only [copyLoop, ih, List.length_set]

/-- `copyLoop` does not modify entries below its first destination. -/
theorem copyLoop_frame (n : Nat) : ∀ (buf : List Nat) (src dst i : Nat), i < dst →
    (copyLoop buf src dst n).getD i 0 = buf.getD i 0 := by
  induction n with
  | zero => intro buf src dst i _; rfl
  | succ n ih =>
    intro buf src dst i hi
    simp only [copyLoop]
    rw [ih _ _ _ _ (by omega)]
    simp [List.getD, List.getElem?_set_ne (by omega : dst ≠ i)]

/-- The central overlap property of `copyLoop`: after copying `n` bytes
forward from `src` to `dst = src + d`, every copied byte equals the byte
`d` positions earlier in the *final* buffer. -/
theorem copyLoop_reads (d : Nat) (hd : 0 < d) (n : Nat) :
    ∀ (buf : List Nat) (src dst : Nat), dst = src + d → dst + n ≤ buf.length →
    ∀ k, k < n →
      (copyLoop buf src dst n).getD (dst + k) 0 =
      (copyLoop buf src dst n).getD (src + k) 0 := by
  induction n with
  | zero => intro buf src dst _ _ k hk; omega
  | succ n ih =>
    intro buf src dst hdst hlen k hk
    simp only [copyLoop]
    rcases Nat.eq_zero_or_pos k with hk0 | hkpos
    · subst hk0
      simp only [Nat.add_zero]
      have hdlt : dst < buf.length := by omega
      have hslt : src < dst := by omega
      rw [copyLoop_frame n _ _ _ dst (by omega), copyLoop_frame n _ _ _ src (by omega)]
      simp [List.getD, List.getElem?_set_self hdlt, List.getElem?_set_ne (by omega : dst ≠ src)]
    · obtain ⟨k', rfl⟩ : ∃ k', k = k' + 1 := ⟨k - 1, by omega⟩
      have := ih (buf.set dst (buf.getD src 0)) (src + 1) (dst + 1) (by omega)
        (by simp [List.length_set]; omega) k' (by omega)
      calc (copyLoop (buf.set dst (buf.getD src 0)) (src + 1) (dst + 1) n).getD (dst + (k' + 1)) 0
          = (copyLoop (buf.set dst (buf.getD src 0)) (src + 1) (dst + 1) n).getD ((dst + 1) + k') 0 := by
            rw [show dst + (k' + 1) = (dst + 1) + k' by omega]
        _ = (copyLoop (buf.set dst (buf.getD src 0)) (src + 1) (dst + 1) n).getD ((src + 1) + k') 0 := this
        _ = (copyLoop (buf.set dst (buf.getD src 0)) (src + 1) (dst + 1) n).getD (src + (k' + 1)) 0 := by
            rw [show (src + 1) + k' = src + (k' + 1) by omega]

/-- C8: a length/distance pair `(L, d)` with `d` not exceeding the current
output length `n` appends exactly `L` bytes, leaves the existing output
unchanged, and satisfies `out[n+k] = out[n+k-d]` for every `k < L` — the
copy permits overlap (`d < L` included), so `d = 1` replicates the last
byte. -/
theorem c8_backreference_copy_overlap (out : List Nat) (d L : Nat)
    (hd : 1 ≤ d) (hdn : d ≤ out.length) :
    ∃ res, backRefCopy out d L = .ok res ∧
      res.length = out.length + L ∧
      (∀ i, i < out.length → res.getD i 0 = out.getD i 0) ∧
      (∀ k, k < L → res.getD (out.length + k) 0 = res.getD (out.length + k - d) 0) := by
  refine ⟨copyLoop (out ++ List.replicate L 0) (out.length - d) out.length L, ?_, ?_, ?_, ?_⟩
  · unfold backRefCopy
    rw [if_neg (by omega)]
  · rw [copyLoop_length]; simp
  · intro i hi
    rw [copyLoop_frame _ _ _ _ _ hi]
    simp [List.getD, List.getElem?_append_left hi]
  · intro k hk
    have h := copyLoop_reads d (by omega) L (out ++ List.replicate L 0)
      (out.length - d) out.length (by omega) (by simp) k hk
    rw [h, show out.length - d + k = out.length + k - d by omega]

/-- C8 witness: with output `[7]`, distance 1 and length 3 the appended run
replicates the last byte. -/
theorem c8_backreference_copy_overlap_witness :
    ∃ res, backRefCopy [7] 1 3 = .ok res ∧
      res.length = 1 + 3 ∧
      (∀ i, i < List.length [7] → res.getD i 0 = List.getD [7] i 0) ∧
      (∀ k, k < 3 → res.getD (List.length [7] + k) 0 = res.getD (List.length [7] + k - 1) 0) :=
  c8_backreference_copy_overlap [7] 1 3 (by decide) (by decide)

/-! ## Transparency keying (claim C4) -/

/-- C4 counterexample: on `trnsKeyPng` the decoded pixel is (2,2,2) with
alpha 255, although all three 8-bit channels equal the claimed 8-bit
normalisation (`the key's low byte`) of the stored keys
(`claimNormKey 8 1 258 = 2`, scale being 1 at depth 8).  Under the claim the
alpha would have to be 0: the code compares against the full 16-bit key
(258), not its low byte. -/
theorem c4_counterexample_full_key_compared :
    readPng 1000 trnsKeyPng = some ⟨1, 1, [2, 2, 2, 255]⟩ ∧
    claimNormKey 8 1 258 = 2 ∧ normalizeKey 8 1 258 = 258 :=
  ⟨rfl, rfl, rfl⟩

/-- Unrolling `colorKey2Loop` by one pixel. -/
theorem colorKey2Loop_succ (n tR tG tB : Nat) (img : List Nat) :
    colorKey2Loop (n + 1) tR tG tB img =
      if (colorKey2Loop n tR tG tB img).getD (4 * n) 0 = tR ∧
         (colorKey2Loop n tR tG tB img).getD (4 * n + 1) 0 = tG ∧
         (colorKey2Loop n tR tG tB img).getD (4 * n + 2) 0 = tB
      then (colorKey2Loop n tR tG tB img).set (4 * n + 3) 0
      else colorKey2Loop n tR tG tB img := by
  unfold colorKey2Loop
  rw [List.range_succ, List.foldl_append]
  simp

/-- `colorKey2Loop` preserves the buffer length. -/
theorem colorKey2Loop_length (n tR tG tB : Nat) (img : List Nat) :
    (colorKey2Loop n tR tG tB img).length = img.length := by
  induction n with
  | zero => rfl
  | succ n ih =>
    rw [colorKey2Loop_succ]
    split
    · rw [List.length_set, ih]
    · exact ih

/-- `colorKey2Loop` writes only the alpha bytes of pixels below its bound:
any position that is not an alpha byte, or belongs to a pixel at or beyond
the bound, is untouched. -/
theorem colorKey2Loop_frame (n tR tG tB : Nat) (img : List Nat) (j : Nat)
    (hj : j % 4 ≠ 3 ∨ 4 * n ≤ j) :
    (colorKey2Loop n tR tG tB img).getD j 0 = img.getD j 0 := by
  induction n with
  | zero => rfl
  | succ n ih =>
    rw [colorKey2Loop_succ]
    have ihj := ih (by omega)
    split
    · rw [getD_set_ne _ _ _ (by omega : 4 * n + 3 ≠ j), ihj]
    · exact ihj

/-- C4 amended: with the keys normalised once by the *code's* rule
(`normalizeKey`: `key*scale mod 2^16` for depth<8, `key >>> 8` for
depth 16, the full 16-bit key otherwise), the colour-type-2 keying loop
sets a pixel's alpha to 0 exactly when its three channels equal the three
normalised keys, and leaves the alpha unchanged otherwise.  In particular
at depth 16 the stored key is shifted right by 8 exactly once and compared
against the high-byte channels. -/
theorem c4_amended_color_keying (depth scale tR tG tB : Nat) (img : List Nat)
    (n k : Nat) (hk : k < n) (hlen : 4 * n ≤ img.length) :
    (colorKey2Loop n (normalizeKey depth scale tR) (normalizeKey depth scale tG)
        (normalizeKey depth scale tB) img).getD (4 * k + 3) 0 =
      if img.getD (4 * k) 0 = normalizeKey depth scale tR ∧
         img.getD (4 * k + 1) 0 = normalizeKey depth scale tG ∧
         img.getD (4 * k + 2) 0 = normalizeKey depth scale tB
      then 0 else img.getD (4 * k + 3) 0 := by
  set tR' := normalizeKey depth scale tR
  set tG' := normalizeKey depth scale tG
  set tB' := normalizeKey depth scale tB
  induction n with
  | zero => omega
  | succ n ih =>
    rw [colorKey2Loop_succ]
    rcases Nat.lt_or_ge k n with hkn | hkn
    · split
      · rw [getD_set_ne _ _ _ (by omega : 4 * n + 3 ≠ 4 * k + 3)]
        exact ih hkn (by omega)
      · exact ih hkn (by omega)
    · have hkeq : k = n := by omega
      subst hkeq
      have hr := colorKey2Loop_frame k tR' tG' tB' img (4 * k) (Or.inl (by omega))
      have hg := colorKey2Loop_frame k tR' tG' tB' img (4 * k + 1) (Or.inl (by omega))
      have hb := colorKey2Loop_frame k tR' tG' tB' img (4 * k + 2) (Or.inl (by omega))
      have ha := colorKey2Loop_frame k tR' tG' tB' img (4 * k + 3) (Or.inr (by omega))
      rw [hr, hg, hb]
      split
      · have hlt : 4 * k + 3 < (colorKey2Loop k tR' tG' tB' img).length := by
          rw [colorKey2Loop_length]; omega
        exact getD_set_self _ _ _ hlt
      · exact ha

theorem c4_amended_color_keying_witness :
    (0 : Nat) < 2 ∧ 4 * 2 ≤ List.length [2, 2, 2, 9, 5, 5, 5, 9] ∧
    (colorKey2Loop 2 (normalizeKey 16 1 0x0203) (normalizeKey 16 1 0x0203)
        (normalizeKey 16 1 0x0203) [2, 2, 2, 9, 5, 5, 5, 9]).getD (4 * 0 + 3) 0 =
      if List.getD [2, 2, 2, 9, 5, 5, 5, 9] (4 * 0) 0 = normalizeKey 16 1 0x0203 ∧
         List.getD [2, 2, 2, 9, 5, 5, 5, 9] (4 * 0 + 1) 0 = normalizeKey 16 1 0x0203 ∧
         List.getD [2, 2, 2, 9, 5, 5, 5, 9] (4 * 0 + 2) 0 = normalizeKey 16 1 0x0203
      then 0 else List.getD [2, 2, 2, 9, 5, 5, 5, 9] (4 * 0 + 3) 0 :=
  ⟨by decide, by decide,
   c4_amended_color_keying 16 1 0x0203 0x0203 0x0203 [2, 2, 2, 9, 5, 5, 5, 9] 2 0
     (by decide) (by decide)⟩

/-! ## Missing palette (claim C6) -/

/-- C6 counterexample: `noPalettePng` declares colour type 3 in its IHDR and
contains no PLTE chunk, yet `readPng` succeeds (returning the default
all-zero palette colour with alpha 255) instead of failing. -/
theorem c6_counterexample_no_palette_still_decodes :
    readPng 1000 noPalettePng = some ⟨1, 1, [0, 0, 0, 255]⟩ ∧
    ((readChunks (noPalettePng.drop 8)).getD []).countP
      (fun c => c.type == plteType) = 0 ∧
    (readHeaderChunk (((readChunks (noPalettePng.drop 8)).getD []).getD 0 emptyChunk)).map
      PngInfo.colorType = some 3 :=
  ⟨rfl, rfl, rfl⟩

/-- A chunk other than PLTE never modifies the colour palettes. -/
theorem processChunk_palette_unchanged (info : PngInfo) (a a' : ChunkAccum)
    (c : PngChunk) (hnp : c.type ≠ plteType)
    (h : processChunk info a c = some a') :
    a'.paletteR = a.paletteR ∧ a'.paletteG = a.paletteG ∧ a'.paletteB = a.paletteB := by
  unfold processChunk at h
  rw [if_neg hnp] at h
  split at h
  · cases h; exact ⟨rfl, rfl, rfl⟩
  · split at h
    · split at h
      · split at h
        · exact absurd h (by simp)
        · cases h; exact ⟨rfl, rfl, rfl⟩
      · split at h
        · split at h
          · exact absurd h (by simp)
          · cases h; exact ⟨rfl, rfl, rfl⟩
        · split at h
          · split at h
            · exact absurd h (by simp)
            · cases h; exact ⟨rfl, rfl, rfl⟩
          · cases h; exact ⟨rfl, rfl, rfl⟩
    · cases h; exact ⟨rfl, rfl, rfl⟩

/-- Folding `processChunk` over PLTE-free chunks keeps the palettes. -/
theorem processChunks_palette_unchanged (info : PngInfo) :
    ∀ (chunks : List PngChunk) (a acc : ChunkAccum),
    (∀ c ∈ chunks, c.type ≠ plteType) →
    chunks.foldlM (processChunk info) a = some acc →
    acc.paletteR = a.paletteR ∧ acc.paletteG = a.paletteG ∧ acc.paletteB = a.paletteB := by
  intro chunks
  induction chunks with
  | nil => intro a acc _ h; cases h; exact ⟨rfl, rfl, rfl⟩
  | cons c rest ih =>
    intro a acc hnp h
    rw [List.foldlM_cons] at h
    cases hstep : processChunk info a c with
    | none => rw [hstep] at h; exact absurd h (by simp)
    | some a1 =>
      rw [hstep] at h
      simp only [Option.bind_eq_bind, Option.some_bind] at h
      have h1 := processChunk_palette_unchanged info a a1 c
        (hnp c (List.mem_cons_self c rest)) hstep
      have h2 := ih a1 acc (fun d hd => hnp d (List.mem_cons_of_mem c hd)) h
      exact ⟨h2.1.trans h1.1, h2.2.1.trans h1.2.1, h2.2.2.trans h1.2.2⟩

/-- C6 amended: a colour-type-3 stream with no PLTE chunk is *not*
rejected; the chunk-classification stage simply leaves the palette at its
initial value — colour channels all 0 (alpha stays 255 unless a tRNS chunk
overwrites it) — and decoding proceeds with that black palette. -/
theorem c6_amended_missing_palette_defaults (info : PngInfo)
    (chunks : List PngChunk) (acc : ChunkAccum)
    (hnp : ∀ c ∈ chunks, c.type ≠ plteType)
    (h : processChunks info chunks = some acc) :
    acc.paletteR = List.replicate 256 0 ∧
    acc.paletteG = List.replicate 256 0 ∧
    acc.paletteB = List.replicate 256 0 :=
  processChunks_palette_unchanged info chunks initAccum acc hnp h

/-- C6 amended witness: the concrete chunk list of `noPalettePng`. -/
theorem c6_amended_missing_palette_defaults_witness :
    (∀ c ∈ (readChunks (noPalettePng.drop 8)).getD [], c.type ≠ plteType) ∧
    ∃ acc, processChunks ⟨1, 1, 8, 3, 0, 0, 0⟩ ((readChunks (noPalettePng.drop 8)).getD []) = some acc ∧
      acc.paletteR = List.replicate 256 0 ∧
      acc.paletteG = List.replicate 256 0 ∧
      acc.paletteB = List.replicate 256 0 := by
  refine ⟨by decide, ?_⟩
  cases hacc : processChunks ⟨1, 1, 8, 3, 0, 0, 0⟩ ((readChunks (noPalettePng.drop 8)).getD []) with
  | none => exact absurd hacc (by decide)
  | some acc =>
    exact ⟨acc, rfl,
      c6_amended_missing_palette_defaults ⟨1, 1, 8, 3, 0, 0, 0⟩ _ acc (by decide) hacc⟩

/-! ## Adam7 scatter indexing (claim C3) -/

/-- Ceiling-division helper: one loop iteration peels off one stride. -/
theorem ceilDivStep (s : Nat) (hs : 1 ≤ s) (H row : Nat) (hlt : row < H) :
    (H - row + s - 1) / s = (H - (row + s) + s - 1) / s + 1 := by
  rcases Nat.lt_or_ge (H - row) s with hd | hd
  · have h1 : H - (row + s) = 0 := by omega
    have h2 : H - row + s - 1 = (H - row - 1) + s := by omega
    rw [h1, h2, Nat.add_div_right _ (by omega : 0 < s)]
    rw [Nat.div_eq_of_lt (by omega), Nat.div_eq_of_lt (by omega)]
  · have h2 : H - row + s - 1 = (H - (row + s) + s - 1) + s := by omega
    rw [h2, Nat.add_div_right _ (by omega : 0 < s)]

/-- Ceiling division is zero past the end. -/
theorem ceilDivZero (s : Nat) (hs : 1 ≤ s) (H row : Nat) (hge : H ≤ row) :
    (H - row + s - 1) / s = 0 := by
  have h1 : H - row = 0 := by omega
  rw [h1, Nat.zero_add, Nat.div_eq_of_lt (by omega)]

/-- The iteration count of a strided loop is at most the bound. -/
theorem ceilDivLe (s : Nat) (hs : 1 ≤ s) (W c : Nat) : (W - c + s - 1) / s ≤ W := by
  rcases Nat.lt_or_ge c W with h | h
  · rw [Nat.div_le_iff_le_mul_add_pred (by omega : 0 < s)]
    have h2 : W ≤ s * W := Nat.le_mul_of_pos_left W (by omega)
    omega
  · rw [ceilDivZero s hs W c h]
    omega

/-- Each channel byte logs exactly one destination index. -/
theorem scatterByte_writes (depth scale bpp lbw pPerB col row : Nat)
    (st : ScatterState) (x : Nat) :
    (scatterByte depth scale bpp lbw pPerB col row st x).writes =
      st.writes ++ [col * bpp + row * lbw + x] := by
  unfold scatterByte
  split
  · rfl
  · split <;> rfl

/-- One visited `(col, row)` position logs `chanBytes` consecutive
destinations starting at `col * bpp + row * lbw`. -/
theorem scatterBody_writes (depth scale bpp lbw pPerB col row : Nat) :
    ∀ (chanBytes : Nat) (st : ScatterState),
    (scatterBody depth scale bpp lbw chanBytes pPerB col row st).writes =
      st.writes ++ (List.range chanBytes).map (fun x => col * bpp + row * lbw + x) := by
  intro chanBytes
  induction chanBytes with
  | zero => intro st; simp [scatterBody]
  | succ n ih =>
    intro st
    unfold scatterBody at *
    rw [List.range_succ, List.foldl_append, List.map_append]
    simp only [List.foldl_cons, List.foldl_nil, List.map_cons, List.map_nil]
    rw [scatterByte_writes, ih st, List.append_assoc]

/-- The column loop visits `col, col+strideX, ...` below `W`, in order. -/
theorem scatterColLoop_writes (depth scale bpp lbw chanBytes pPerB row strideX W : Nat)
    (hs : 1 ≤ strideX) :
    ∀ (fuel col : Nat) (st : ScatterState), (W - col + strideX - 1) / strideX ≤ fuel →
    (scatterColLoop depth scale bpp lbw chanBytes pPerB row strideX W fuel col st).writes =
      st.writes ++ (List.range ((W - col + strideX - 1) / strideX)).flatMap
        (fun i => (List.range chanBytes).map
          (fun x => (col + i * strideX) * bpp + row * lbw + x)) := by
  intro fuel
  induction fuel with
  | zero =>
    intro col st hf
    rw [Nat.le_zero.mp hf]
    simp [scatterColLoop]
  | succ fuel ih =>
    intro col st hf
    unfold scatterColLoop
    rcases Nat.lt_or_ge col W with hcw | hcw
    · rw [if_pos hcw, ceilDivStep strideX hs W col hcw]
      rw [ih (col + strideX) _ (by
        rw [ceilDivStep strideX hs W col hcw] at hf
        exact Nat.le_of_succ_le_succ hf)]
      rw [scatterBody_writes, List.append_assoc]
      congr 1
      rw [List.range_succ_eq_map, List.flatMap_cons, List.flatMap_map]
      congr 1
      · simp
      · apply List.flatMap_congr
        intro i _
        apply List.map_congr_left
        intro x _
        have : col + (i + 1) * strideX = col + strideX + i * strideX := by ring
        rw [this]
    · rw [if_neg (by omega), ceilDivZero strideX hs W col hcw]
      simp

/-- The row loop visits `row, row+strideY, ...` below `H`, scattering each
visited sample row-major; the end-of-row flush does not log writes. -/
theorem scatterRowLoop_writes (depth scale bpp lbw chanBytes pPerB startX strideX strideY W H : Nat)
    (hsX : 1 ≤ strideX) (hsY : 1 ≤ strideY) :
    ∀ (fuel row : Nat) (st : ScatterState), (H - row + strideY - 1) / strideY ≤ fuel →
    (scatterRowLoop depth scale bpp lbw chanBytes pPerB startX strideX strideY W H fuel row st).writes =
      st.writes ++ (List.range ((H - row + strideY - 1) / strideY)).flatMap
        (fun j => (List.range ((W - startX + strideX - 1) / strideX)).flatMap
          (fun i => (List.range chanBytes).map
            (fun x => (startX + i * strideX) * bpp + (row + j * strideY) * lbw + x))) := by
  intro fuel
  induction fuel with
  | zero =>
    intro row st hf
    rw [Nat.le_zero.mp hf]
    simp [scatterRowLoop]
  | succ fuel ih =>
    intro row st hf
    unfold scatterRowLoop
    rcases Nat.lt_or_ge row H with hrh | hrh
    · rw [if_pos hrh]
      have hcol := scatterColLoop_writes depth scale bpp lbw chanBytes pPerB row strideX W
        hsX (W + 1) startX st (Nat.le_trans (ceilDivLe strideX hsX W startX) (Nat.le_succ W))
      set st1 := scatterColLoop depth scale bpp lbw chanBytes pPerB row strideX W (W + 1) startX st with hst1
      have hflush : (if st1.i ≠ 0 then { st1 with p := st1.p + 1, i := 0 } else st1).writes = st1.writes := by
        split <;> rfl
      rw [ceilDivStep strideY hsY H row hrh]
      rw [ih (row + strideY) _ (by
        rw [ceilDivStep strideY hsY H row hrh] at hf
        exact Nat.le_of_succ_le_succ hf)]
      rw [hflush, hcol, List.append_assoc]
      congr 1
      rw [List.range_succ_eq_map, List.flatMap_cons, List.flatMap_map]
      congr 1
      · simp
      · apply List.flatMap_congr
        intro j _
        apply List.flatMap_congr
        intro i _
        apply List.map_congr_left
        intro x _
        have : row + (j + 1) * strideY = row + strideY + j * strideY := by ring
        rw [this]
    · rw [if_neg (by omega), ceilDivZero strideY hsY H row hrh]
      simp

/-- C3: for every pass `p` the scatter loop of `readRawImage` — run with the
source's `starting_col[p]`, `starting_row[p]`, `col_increment[p]`,
`row_increment[p]` arguments exactly as `readPng` passes them — writes the
pass's samples, in row-major `(row, col)` order, to destination byte indices
`(startX + col·strideX)·bpp + (startY + row·strideY)·lineByteWidth + x`
where `(startX, startY, strideX, strideY)` are the claim's table values
(`adam7StartX` etc.): the constants are used as listed, with
`starting_col[p] = startX` multiplying `bpp` (the x coordinate) and
`starting_row[p] = startY` multiplying the line width (the y coordinate) —
not swapped. -/
theorem c3_adam7_scatter_constants_not_swapped (p : Nat) (hp : p < 7)
    (W H bpp lbw chanBytes depth scale pPerB : Nat) (img passBuf : List Nat) :
    (scatterRowLoop depth scale bpp lbw chanBytes pPerB
        (starting_col.getD p 0) (col_increment.getD p 0) (row_increment.getD p 0)
        W H (H + 1) (starting_row.getD p 0) ⟨img, passBuf, 0, 0, []⟩).writes =
      (List.range ((H - adam7StartY.getD p 0 + adam7StrideY.getD p 0 - 1) / adam7StrideY.getD p 0)).flatMap
        (fun j => (List.range ((W - adam7StartX.getD p 0 + adam7StrideX.getD p 0 - 1) / adam7StrideX.getD p 0)).flatMap
          (fun i => (List.range chanBytes).map
            (fun x => (adam7StartX.getD p 0 + i * adam7StrideX.getD p 0) * bpp +
                      (adam7StartY.getD p 0 + j * adam7StrideY.getD p 0) * lbw + x))) := by
  interval_cases p <;>
    simpa using scatterRowLoop_writes depth scale bpp lbw chanBytes pPerB _ _ _ W H
      (by decide) (by decide) (H + 1) _ ⟨img, passBuf, 0, 0, []⟩
      (Nat.le_trans (ceilDivLe _ (by decide) H _) (Nat.le_succ H))

/-- C3 witness: pass 1 (startX 4, startY 0) on a 6x2 image with one channel
byte. -/
theorem c3_adam7_scatter_constants_not_swapped_witness :
    (1 : Nat) < 7 ∧
    (scatterRowLoop 8 1 1 6 1 1
        (starting_col.getD 1 0) (col_increment.getD 1 0) (row_increment.getD 1 0)
        6 2 (2 + 1) (starting_row.getD 1 0)
        ⟨List.replicate 12 0, [9, 9], 0, 0, []⟩).writes =
      (List.range ((2 - adam7StartY.getD 1 0 + adam7StrideY.getD 1 0 - 1) / adam7StrideY.getD 1 0)).flatMap
        (fun j => (List.range ((6 - adam7StartX.getD 1 0 + adam7StrideX.getD 1 0 - 1) / adam7StrideX.getD 1 0)).flatMap
          (fun i => (List.range 1).map
            (fun x => (adam7StartX.getD 1 0 + i * adam7StrideX.getD 1 0) * 1 +
                      (adam7StartY.getD 1 0 + j * adam7StrideY.getD 1 0) * 6 + x))) :=
  ⟨by decide,
   c3_adam7_scatter_constants_not_swapped 1 (by decide) 6 2 1 6 1 8 1 1
     (List.replicate 12 0) [9, 9]⟩

/-! ## Filter reversal (claim C7) -/

/-- For filter ids 0-4 the code's `unfilter` byte computation coincides
with the claim's recovery formulas. -/
theorem unfilterByte_eq_claim (bpp : Nat) (data : List Nat) (f x y w byte : Nat)
    (hf : f ≤ 4) :
    unfilterByte bpp data f x y w byte =
      claimRecover f byte (claimA data bpp w x y) (claimB data w x y)
        (claimC data bpp w x y) := by
  unfold unfilterByte claimRecover claimA claimB claimC claimPaeth paethPredict
  interval_cases f <;> simp [ge_iff_le]

/-- Loop invariant of the per-scanline byte loop: the stream cursor
advances one byte per iteration, positions outside the processed span are
untouched, and every processed byte satisfies the claim's recovery
equation with predictors read from the resulting buffer. -/
theorem unfilterLineInner (dec : List Nat) (bpp w y f : Nat) (hbpp : 1 ≤ bpp)
    (hf : f ≤ 4) :
    ∀ (n : Nat) (buf : List Nat) (pos1 : Nat), n ≤ w → w * (y + 1) ≤ buf.length →
    ((List.range n).foldl (unfilterStep dec bpp w y f) (buf, pos1)).2 = pos1 + n ∧
    ((List.range n).foldl (unfilterStep dec bpp w y f) (buf, pos1)).1.length = buf.length ∧
    (∀ j, (j < y * w ∨ y * w + n ≤ j) →
      ((List.range n).foldl (unfilterStep dec bpp w y f) (buf, pos1)).1.getD j 0 = buf.getD j 0) ∧
    (∀ x, x < n →
      ((List.range n).foldl (unfilterStep dec bpp w y f) (buf, pos1)).1.getD (x + y * w) 0 =
      claimRecover f (dec.getD (pos1 + x) 0)
        (claimA ((List.range n).foldl (unfilterStep dec bpp w y f) (buf, pos1)).1 bpp w x y)
        (claimB ((List.range n).foldl (unfilterStep dec bpp w y f) (buf, pos1)).1 w x y)
        (claimC ((List.range n).foldl (unfilterStep dec bpp w y f) (buf, pos1)).1 bpp w x y)) := by
  intro n
  induction n with
  | zero =>
    intro buf pos1 _ _
    refine ⟨rfl, rfl, fun j _ => rfl, fun x hx => absurd hx (by omega)⟩
  | succ n ih =>
    intro buf pos1 hn hlen
    obtain ⟨ih1, ih2, ih3, ih4⟩ := ih buf pos1 (by omega) hlen
    set prev := (List.range n).foldl (unfilterStep dec bpp w y f) (buf, pos1) with hprev
    have hfold : (List.range (n + 1)).foldl (unfilterStep dec bpp w y f) (buf, pos1) =
        unfilterStep dec bpp w y f prev n := by
      rw [List.range_succ, List.foldl_append, List.foldl_cons, List.foldl_nil]
    rw [hfold]
    unfold unfilterStep
    simp only
    set byte := dec.getD prev.2 0 with hbyte
    set v := unfilterByte bpp prev.1 f n y w byte with hv
    have hsetlen : (prev.1.set (n + y * w) v).length = buf.length := by
      rw [List.length_set, ih2]
    refine ⟨by rw [ih1]; omega, hsetlen, ?_, ?_⟩
    · intro j hj
      rw [getD_set_ne _ _ _ (by omega : n + y * w ≠ j)]
      exact ih3 j (by omega)
    · -- the read positions of any x ≤ n are untouched by the write at n + y*w
      have hreadA : ∀ x, x ≤ n → claimA (prev.1.set (n + y * w) v) bpp w x y = claimA prev.1 bpp w x y := by
        intro x hx
        unfold claimA
        split
        · rw [getD_set_ne _ _ _ (by omega : n + y * w ≠ x - bpp + y * w)]
        · rfl
      have hreadB : ∀ x, x ≤ n → x < w → claimB (prev.1.set (n + y * w) v) w x y = claimB prev.1 w x y := by
        intro x hx hxw
        unfold claimB
        split
        · have : x + (y - 1) * w < y * w := by
            have h1 : (y - 1) * w + w = y * w := by
              have : y - 1 + 1 = y := by omega
              calc (y - 1) * w + w = (y - 1 + 1) * w := by ring
                _ = y * w := by rw [this]
            omega
          rw [getD_set_ne _ _ _ (by omega : n + y * w ≠ x + (y - 1) * w)]
        · rfl
      have hreadC : ∀ x, x ≤ n → x < w → claimC (prev.1.set (n + y * w) v) bpp w x y = claimC prev.1 bpp w x y := by
        intro x hx hxw
        unfold claimC
        split
        · rename_i hcond
          have : x - bpp + (y - 1) * w < y * w := by
            have h1 : (y - 1) * w + w = y * w := by
              have : y - 1 + 1 = y := by omega
              calc (y - 1) * w + w = (y - 1 + 1) * w := by ring
                _ = y * w := by rw [this]
            omega
          rw [getD_set_ne _ _ _ (by omega : n + y * w ≠ x - bpp + (y - 1) * w)]
        · rfl
      intro x hx
      rcases Nat.lt_or_ge x n with hxn | hxn
      · rw [getD_set_ne _ _ _ (by omega : n + y * w ≠ x + y * w)]
        rw [hreadA x (by omega), hreadB x (by omega) (by omega), hreadC x (by omega) (by omega)]
        exact ih4 x hxn
      · have hxeq : x = n := by omega
        subst hxeq
        have hexp : w * (y + 1) = y * w + w := by ring
        have hlt : x + y * w < prev.1.length := by rw [ih2]; omega
        rw [getD_set_self _ _ _ hlt]
        rw [hreadA x (by omega), hreadB x (by omega) (by omega), hreadC x (by omega) (by omega)]
        rw [hv, hbyte, ih1]
        exact unfilterByte_eq_claim bpp prev.1 f x y w (dec.getD (pos1 + x) 0) hf

/-- Unrolling `unfilterPass` by one scanline. -/
theorem unfilterPass_succ (dec : List Nat) (bpp w h : Nat) (st0 : List Nat × Nat) :
    unfilterPass dec bpp w (h + 1) st0 =
      unfilterLine dec bpp w (unfilterPass dec bpp w h st0) h := by
  unfold unfilterPass
  rw [List.range_succ, List.foldl_append, List.foldl_cons, List.foldl_nil]

/-- Loop invariant of the whole pass: the cursor consumes `w+1` bytes per
scanline and every cell of every processed scanline satisfies the claim's
recovery equation in the final buffer. -/
theorem unfilterPassCorrect (dec : List Nat) (bpp w : Nat) (hbpp : 1 ≤ bpp) :
    ∀ (h : Nat) (buf0 : List Nat) (pos0 : Nat), w * h ≤ buf0.length →
    (∀ y, y < h → dec.getD (pos0 + y * (w + 1)) 0 ≤ 4) →
    (unfilterPass dec bpp w h (buf0, pos0)).2 = pos0 + h * (w + 1) ∧
    (unfilterPass dec bpp w h (buf0, pos0)).1.length = buf0.length ∧
    (∀ j, h * w ≤ j → (unfilterPass dec bpp w h (buf0, pos0)).1.getD j 0 = buf0.getD j 0) ∧
    (∀ y, y < h → ∀ x, x < w →
      (unfilterPass dec bpp w h (buf0, pos0)).1.getD (x + y * w) 0 =
      claimRecover (dec.getD (pos0 + y * (w + 1)) 0)
        (dec.getD (pos0 + y * (w + 1) + 1 + x) 0)
        (claimA (unfilterPass dec bpp w h (buf0, pos0)).1 bpp w x y)
        (claimB (unfilterPass dec bpp w h (buf0, pos0)).1 w x y)
        (claimC (unfilterPass dec bpp w h (buf0, pos0)).1 bpp w x y)) := by
  intro h
  induction h with
  | zero =>
    intro buf0 pos0 _ _
    refine ⟨by simp [unfilterPass], rfl, fun j _ => rfl, fun y hy => absurd hy (by omega)⟩
  | succ h ih =>
    intro buf0 pos0 hlen hfs
    have hm2 : (h + 1) * w = h * w + w := by ring
    obtain ⟨ih1, ih2, ih3, ih4⟩ := ih buf0 pos0
      (by have : w * h ≤ w * (h + 1) := Nat.mul_le_mul_left w (by omega); omega)
      (fun y hy => hfs y (by omega))
    rw [unfilterPass_succ]
    set prev := unfilterPass dec bpp w h (buf0, pos0) with hprevdef
    have hline : unfilterLine dec bpp w prev h =
        (List.range w).foldl (unfilterStep dec bpp w h (dec.getD prev.2 0)) (prev.1, prev.2 + 1) := by
      unfold unfilterLine
      rfl
    rw [hline, ih1]
    have hfh : dec.getD (pos0 + h * (w + 1)) 0 ≤ 4 := hfs h (by omega)
    have hmul : w * (h + 1) = h * w + w := by ring
    obtain ⟨in1, in2, in3, in4⟩ := unfilterLineInner dec bpp w h
      (dec.getD (pos0 + h * (w + 1)) 0) hbpp hfh w prev.1 (pos0 + h * (w + 1) + 1)
      (le_refl w) (by rw [ih2]; omega)
    set res := (List.range w).foldl
      (unfilterStep dec bpp w h (dec.getD (pos0 + h * (w + 1)) 0))
      (prev.1, pos0 + h * (w + 1) + 1) with hresdef
    refine ⟨?_, ?_, ?_, ?_⟩
    · rw [in1]; ring
    · rw [in2, ih2]
    · intro j hj
      rw [in3 j (by omega), ih3 j (by omega)]
    · intro y hy x hx
      rcases Nat.lt_or_ge y h with hyh | hyh
      · -- a previous line: its cells and all its read positions lie below h * w
        have hcell : x + y * w < h * w := by
          have h1 : y * w + w ≤ h * w := by
            have := Nat.mul_le_mul_right w (show y + 1 ≤ h by omega)
            calc y * w + w = (y + 1) * w := by ring
              _ ≤ h * w := this
          omega
        have hAeq : claimA res.1 bpp w x y = claimA prev.1 bpp w x y := by
          unfold claimA
          split
          · exact in3 _ (by omega)
          · rfl
        have hBeq : claimB res.1 w x y = claimB prev.1 w x y := by
          unfold claimB
          split
          · rename_i hy1
            have hlt : x + (y - 1) * w < h * w := by
              have h1 : (y - 1) * w + w = y * w := by
                have hyy : y - 1 + 1 = y := by omega
                calc (y - 1) * w + w = (y - 1 + 1) * w := by ring
                  _ = y * w := by rw [hyy]
              omega
            exact in3 _ (by omega)
          · rfl
        have hCeq : claimC res.1 bpp w x y = claimC prev.1 bpp w x y := by
          unfold claimC
          split
          · rename_i hcond
            have hlt : x - bpp + (y - 1) * w < h * w := by
              have h1 : (y - 1) * w + w = y * w := by
                have hyy : y - 1 + 1 = y := by omega
                calc (y - 1) * w + w = (y - 1 + 1) * w := by ring
                  _ = y * w := by rw [hyy]
              omega
            exact in3 _ (by omega)
          · rfl
        rw [in3 _ (by omega), hAeq, hBeq, hCeq]
        exact ih4 y hyh x hx
      · have hyeq : y = h := by omega
        subst hyeq
        have := in4 x hx
        rw [show pos0 + y * (w + 1) + 1 + x = pos0 + y * (w + 1) + 1 + x from rfl]
        exact this

/-- C7: the scanline loops of `readRawImage` recover each raw byte by the
claim's formulas: for filter id `f ∈ {0,1,2,3,4}` read at the start of
scanline `y`, the recovered byte at `(x, y)` equals `fb`, `fb+a`, `fb+b`,
`fb+⌊(a+b)/2⌋` or `fb+Paeth(a,b,c)` modulo 256 (`claimRecover`), where the
predictors `a = raw(x-bpp, y)`, `b = raw(x, y-1)`, `c = raw(x-bpp, y-1)`
are read from the same pass buffer (`claimA`/`claimB`/`claimC`),
out-of-bounds predictors are 0, `fb` is the filtered byte at stream
position `pos0 + y*(w+1) + 1 + x`, and `bpp = ceil(channels*depth/8)`
(`bppOf`). -/
theorem c7_unfilter_recovers_claim_formula (dec : List Nat)
    (channels depth w h pos0 : Nat) (buf0 : List Nat)
    (hch : 1 ≤ channels) (hd : 1 ≤ depth)
    (hlen : w * h ≤ buf0.length)
    (hfs : ∀ y, y < h → dec.getD (pos0 + y * (w + 1)) 0 ≤ 4)
    (x y : Nat) (hx : x < w) (hy : y < h) :
    (unfilterPass dec (bppOf channels depth) w h (buf0, pos0)).1.getD (x + y * w) 0 =
      claimRecover (dec.getD (pos0 + y * (w + 1)) 0)
        (dec.getD (pos0 + y * (w + 1) + 1 + x) 0)
        (claimA (unfilterPass dec (bppOf channels depth) w h (buf0, pos0)).1
          (bppOf channels depth) w x y)
        (claimB (unfilterPass dec (bppOf channels depth) w h (buf0, pos0)).1 w x y)
        (claimC (unfilterPass dec (bppOf channels depth) w h (buf0, pos0)).1
          (bppOf channels depth) w x y) := by
  have hbpp : 1 ≤ bppOf channels depth := by
    unfold bppOf
    have h1 : 1 ≤ channels * depth := Nat.le_trans hch (Nat.le_mul_of_pos_right channels hd)
    omega
  exact (unfilterPassCorrect dec _ w hbpp h buf0 pos0 hlen hfs).2.2.2 y hy x hx

/-- C7 witness: a 1-byte-wide, 2-line pass with filter 2 (Up) on both
lines: the second raw byte is `(7 + 5) % 256 = 12`. -/
theorem c7_unfilter_recovers_claim_formula_witness :
    (1 : Nat) ≤ 1 ∧ 1 * 2 ≤ List.length [0, 0] ∧
    (∀ y, y < 2 → List.getD [2, 5, 2, 7] (0 + y * (1 + 1)) 0 ≤ 4) ∧
    (unfilterPass [2, 5, 2, 7] (bppOf 1 8) 1 2 ([0, 0], 0)).1.getD (0 + 1 * 1) 0 =
      claimRecover (List.getD [2, 5, 2, 7] (0 + 1 * (1 + 1)) 0)
        (List.getD [2, 5, 2, 7] (0 + 1 * (1 + 1) + 1 + 0) 0)
        (claimA (unfilterPass [2, 5, 2, 7] (bppOf 1 8) 1 2 ([0, 0], 0)).1 (bppOf 1 8) 1 0 1)
        (claimB (unfilterPass [2, 5, 2, 7] (bppOf 1 8) 1 2 ([0, 0], 0)).1 1 0 1)
        (claimC (unfilterPass [2, 5, 2, 7] (bppOf 1 8) 1 2 ([0, 0], 0)).1 (bppOf 1 8) 1 0 1) :=
  ⟨by decide, by decide, by decide,
   c7_unfilter_recovers_claim_formula [2, 5, 2, 7] 1 8 1 2 0 [0, 0]
     (by decide) (by decide) (by decide) (by decide) 0 1 (by decide) (by decide)⟩

/-! ## Non-termination of inflate (claim C10) -/

/-- Reading zero bits returns zero and leaves a well-formed offset
(`bitOffset ≠ 8`) unchanged. -/
theorem readBits_zero (data : List Nat) (off : BitOffset) (h8 : off.bitOffset ≠ 8) :
    readBits data off 0 = (0, off) := by
  obtain ⟨bo, bi⟩ := off
  simp only at h8
  unfold readBits readBitsWhole
  rcases Nat.lt_or_ge bo data.length with hlt | hge
  · rw [if_neg (by simp only; omega)]
    by_cases hb : bi = 0
    · simp [hb]
    · simp [hb, h8]
  · rw [if_pos (by simp only; omega)]

/-- A loop run that completes with a result completes identically with any
larger fuel. -/
theorem runLoop_mono_ok {σ ρ : Type} (step : σ → StepRes σ ρ) :
    ∀ (f f2 : Nat) (s : σ) (r : ρ), runLoop step f s = .ok r → f ≤ f2 →
    runLoop step f2 s = .ok r := by
  intro f
  induction f with
  | zero => intro f2 s r h; exact absurd h (by simp [runLoop])
  | succ f ih =>
    intro f2 s r h hle
    obtain ⟨f2p, rfl⟩ : ∃ k, f2 = k + 1 := ⟨f2 - 1, by omega⟩
    unfold runLoop at h ⊢
    cases hstep : step s with
    | cont s2 => rw [hstep] at h; exact ih f2p s2 r h (by omega)
    | done r2 => rw [hstep] at h; exact h
    | fail e => rw [hstep] at h; simp at h

/-- A loop run that exhausts its fuel also exhausts any smaller fuel. -/
theorem runLoop_antitone_fuel {σ ρ : Type} (step : σ → StepRes σ ρ) :
    ∀ (f f2 : Nat) (s : σ), runLoop step f2 s = .error .outOfFuel → f ≤ f2 →
    runLoop step f s = .error .outOfFuel := by
  intro f
  induction f with
  | zero => intro f2 s _ _; rfl
  | succ f ih =>
    intro f2 s h hle
    obtain ⟨f2p, rfl⟩ : ∃ k, f2 = k + 1 := ⟨f2 - 1, by omega⟩
    unfold runLoop at h ⊢
    cases hstep : step s with
    | cont s2 => rw [hstep] at h; exact ih f2p s2 h (by omega)
    | done r2 => rw [hstep] at h; simp at h
    | fail e => rw [hstep] at h; exact h

/-- If every reachable step continues, the loop exhausts any fuel: the
C++ `while` loop it models never terminates. -/
theorem runLoop_diverges {σ ρ : Type} (step : σ → StepRes σ ρ) (Inv : σ → Prop)
    (hstep : ∀ s, Inv s → ∃ s2, step s = .cont s2 ∧ Inv s2) :
    ∀ (f : Nat) (s : σ), Inv s → runLoop step f s = .error .outOfFuel := by
  intro f
  induction f with
  | zero => intro s _; rfl
  | succ f ih =>
    intro s hs
    obtain ⟨s2, hs2, hinv2⟩ := hstep s hs
    unfold runLoop
    rw [hs2]
    exact ih s2 hinv2

/-- On the degenerate tables the literal/length loop body always appends a
zero literal without consuming any input or moving the cursor. -/
theorem literalStep_degenerate (data : List Nat) (out : List Nat) (off : BitOffset)
    (h8 : off.bitOffset < 8) :
    literalStep data degenerateTable degenerateTable (out, off) = .cont (out ++ [0], off) := by
  unfold literalStep readHuffmanCode
  rw [show degenerateTable.maxBits = 0 from rfl]
  rw [readBits_zero data off (by omega)]
  simp only [decodeCode, degenerateTable]
  obtain ⟨bo, bi⟩ := off
  simp only at h8
  simp [Nat.mod_eq_of_lt h8, Nat.div_eq_of_lt h8]

/-- The literal/length decoding loop never terminates on degenerate
tables. -/
theorem literal_loop_diverges (data : List Nat) :
    ∀ (f : Nat) (out : List Nat) (off : BitOffset), off.bitOffset < 8 →
    runLoop (literalStep data degenerateTable degenerateTable) f (out, off) = .error .outOfFuel := by
  intro f out off h8
  exact runLoop_diverges _ (fun s => s.2.bitOffset < 8)
    (fun s hs => ⟨(s.1 ++ [0], s.2), by
      obtain ⟨o, so⟩ := s
      exact ⟨literalStep_degenerate data o so hs, hs⟩⟩) f (out, off) h8

/-- On `degenerateDynamicInput` the code-length decoding loop needs
exactly 259 iterations (258 pushes and the final check). -/
theorem codeDecode_fuel258_exhausted :
    runLoop (codeDecodeStep degenerateDynamicInput degenerateTable 258) 258
      ([], (⟨5, 5⟩ : BitOffset)) = .error .outOfFuel := by rfl

theorem codeDecode_fuel259_ok :
    runLoop (codeDecodeStep degenerateDynamicInput degenerateTable 258) 259
      ([], (⟨5, 5⟩ : BitOffset)) = .ok (List.replicate 258 0, (⟨5, 5⟩ : BitOffset)) := by rfl

/-- C10: the claim states `inflate` is total.  It is not: on
`degenerateDynamicInput` — a 6-byte zlib stream declaring a dynamic block
whose 19 code-length code lengths are all zero — `makeTable` builds the
degenerate one-slot zero-bit table, `readHuffmanCode` then decodes literal
symbol 0 without consuming a single bit, and the block body loops forever
appending zero bytes.  In the model, no fuel bound whatsoever suffices;
the C++ `while (true)` loop at inflater.hpp:518 never exits (the process
grows `outputData` without bound). -/
theorem c10_inflate_diverges (fuel : Nat) :
    inflate fuel degenerateDynamicInput = .error .outOfFuel := by
  have hshow : inflate fuel degenerateDynamicInput =
      runLoop (blockStep fuel degenerateDynamicInput) fuel ([], (⟨2, 0⟩ : BitOffset)) := rfl
  rw [hshow]
  cases fuel with
  | zero => rfl
  | succ n =>
    have hunfbd : buildDynamic (n + 1) degenerateDynamicInput (⟨2, 3⟩ : BitOffset) =
        (match runLoop (codeDecodeStep degenerateDynamicInput degenerateTable 258) (n + 1)
            ([], (⟨5, 5⟩ : BitOffset)) with
         | .error e => .error e
         | .ok (lengths, o5) =>
           .ok (invertTableBits (makeTable (lengths.take 257)),
                invertTableBits (makeTable ((lengths.drop 257).take 1)), o5)) := rfl
    have hbd : buildDynamic (n + 1) degenerateDynamicInput (⟨2, 3⟩ : BitOffset) =
          .ok (degenerateTable, degenerateTable, (⟨5, 5⟩ : BitOffset)) ∨
        buildDynamic (n + 1) degenerateDynamicInput (⟨2, 3⟩ : BitOffset) =
          .error .outOfFuel := by
      rcases Nat.lt_or_ge n 258 with hn | hn
      · right
        have hrun := runLoop_antitone_fuel
          (codeDecodeStep degenerateDynamicInput degenerateTable 258) (n + 1) 258
          ([], (⟨5, 5⟩ : BitOffset)) codeDecode_fuel258_exhausted (by omega)
        rw [hunfbd, hrun]
      · left
        have hrun := runLoop_mono_ok
          (codeDecodeStep degenerateDynamicInput degenerateTable 258) 259 (n + 1)
          ([], (⟨5, 5⟩ : BitOffset)) (List.replicate 258 0, (⟨5, 5⟩ : BitOffset))
          codeDecode_fuel259_ok (by omega)
        rw [hunfbd, hrun]
        rfl
    have hunfbs : blockStep (n + 1) degenerateDynamicInput ([], (⟨2, 0⟩ : BitOffset)) =
        (match buildDynamic (n + 1) degenerateDynamicInput (⟨2, 3⟩ : BitOffset) with
         | .error e => .fail e
         | .ok (lt, dt, off3) =>
           match runLoop (literalStep degenerateDynamicInput lt dt) (n + 1) ([], off3) with
           | .error e => .fail e
           | .ok (out, off4) =>
             if (1 : Nat) ≠ 0 then .done out else .cont (out, off4)) := rfl
    have hbs : blockStep (n + 1) degenerateDynamicInput ([], (⟨2, 0⟩ : BitOffset)) =
        .fail .outOfFuel := by
      rcases hbd with hok | herr
      · rw [hunfbs, hok]
        have hlit := literal_loop_diverges degenerateDynamicInput (n + 1) []
          (⟨5, 5⟩ : BitOffset) (by decide)
        simp only [hlit]
      · rw [hunfbs, herr]
    show runLoop (blockStep (n + 1) degenerateDynamicInput) (n + 1)
      ([], (⟨2, 0⟩ : BitOffset)) = .error .outOfFuel
    unfold runLoop
    rw [hbs]

/-! ## Canonical Huffman round-trip (claim C9) -/

theorem bitAt_le_one (data : List Nat) (i : Nat) : bitAt data i ≤ 1 :=
  Nat.lt_succ_iff.mp (Nat.mod_lt _ (by omega))

theorem bitsVal_lt (data : List Nat) : ∀ (c : Nat) (pos : Nat), bitsVal data pos c < 2 ^ c := by
  intro c
  induction c with
  | zero => intro pos; simp [bitsVal]
  | succ c ih =>
    intro pos
    have h1 := bitAt_le_one data pos
    have h2 := ih (pos + 1)
    simp only [bitsVal]
    have : 2 ^ (c + 1) = 2 * 2 ^ c := by ring
    omega

theorem msbVal_lt (data : List Nat) : ∀ (c : Nat) (pos : Nat), msbVal data pos c < 2 ^ c := by
  intro c
  induction c with
  | zero => intro pos; simp [msbVal]
  | succ c ih =>
    intro pos
    have h1 := bitAt_le_one data pos
    have h2 := ih (pos + 1)
    simp only [msbVal]
    have : 2 ^ (c + 1) = 2 * 2 ^ c := by ring
    nlinarith

theorem bitsVal_split (data : List Nat) : ∀ (a : Nat) (pos b : Nat),
    bitsVal data pos (a + b) = bitsVal data pos a + 2 ^ a * bitsVal data (pos + a) b := by
  intro a
  induction a with
  | zero => intro pos b; simp [bitsVal]
  | succ a ih =>
    intro pos b
    have hrw : a + 1 + b = (a + b) + 1 := by omega
    rw [hrw]
    simp only [bitsVal]
    rw [ih (pos + 1) b]
    have h1 : pos + 1 + a = pos + (a + 1) := by omega
    rw [h1]
    ring

theorem msbVal_split (data : List Nat) : ∀ (a : Nat) (pos b : Nat),
    msbVal data pos (a + b) = msbVal data pos a * 2 ^ b + msbVal data (pos + a) b := by
  intro a
  induction a with
  | zero => intro pos b; simp [msbVal]
  | succ a ih =>
    intro pos b
    have hrw : a + 1 + b = (a + b) + 1 := by omega
    rw [hrw]
    simp only [msbVal]
    rw [ih (pos + 1) b]
    have h1 : pos + 1 + a = pos + (a + 1) := by omega
    rw [h1]
    ring

/-- Bits past the end of the data are zero. -/
theorem bitAt_past (data : List Nat) (i : Nat) (h : 8 * data.length ≤ i) :
    bitAt data i = 0 := by
  unfold bitAt
  have : data.length ≤ i / 8 := by omega
  rw [List.getD_eq_default _ _ (by omega)]
  simp

theorem bitsVal_past (data : List Nat) : ∀ (c pos : Nat), 8 * data.length ≤ pos →
    bitsVal data pos c = 0 := by
  intro c
  induction c with
  | zero => intro pos _; rfl
  | succ c ih =>
    intro pos h
    simp only [bitsVal]
    rw [bitAt_past data pos h, ih (pos + 1) (by omega)]

theorem mask255 (t : Nat) (h : t ≤ 8) : 255 >>> (8 - t) = 2 ^ t - 1 := by
  interval_cases t <;> rfl

theorem or_shift_add (a x s : Nat) (h : a < 2 ^ s) : a ||| (x <<< s) = a + 2 ^ s * x := by
  apply Nat.eq_of_testBit_eq
  intro i
  rw [Nat.testBit_or, Nat.testBit_shiftLeft]
  rcases Nat.lt_or_ge i s with hi | hi
  · have hd : decide (i ≥ s) = false := by simp; omega
    rw [hd]
    simp only [Bool.false_and, Bool.or_false]
    have hmod : (a + 2 ^ s * x) % 2 ^ s = a := by
      rw [Nat.add_mul_mod_self_left]
      exact Nat.mod_eq_of_lt h
    have hstep : a.testBit i = ((a + 2 ^ s * x) % 2 ^ s).testBit i := by rw [hmod]
    rw [hstep, Nat.testBit_mod_two_pow]
    simp [hi]
  · have hd : decide (i ≥ s) = true := by simp [hi]
    rw [hd]
    simp only [Bool.true_and]
    have h0 : a.testBit i = false :=
      Nat.testBit_lt_two_pow (lt_of_lt_of_le h (Nat.pow_le_pow_right (by omega) hi))
    rw [h0]
    simp only [Bool.false_or]
    have hdiv : (a + 2 ^ s * x) >>> s = x := by
      rw [Nat.shiftRight_eq_div_pow, Nat.add_mul_div_left _ _ (Nat.pos_pow_of_pos s (by omega)),
        Nat.div_eq_of_lt h, Nat.zero_add]
    have h2 : s + (i - s) = i := by omega
    have hcalc : (a + 2 ^ s * x).testBit i = x.testBit (i - s) := by
      calc (a + 2 ^ s * x).testBit i
          = (a + 2 ^ s * x).testBit (s + (i - s)) := by rw [h2]
        _ = ((a + 2 ^ s * x) >>> s).testBit (i - s) := (Nat.testBit_shiftRight _).symm
        _ = x.testBit (i - s) := by rw [hdiv]
    exact hcalc.symm

theorem mod_two_pow_succ_low (m t : Nat) : m % 2 ^ (t + 1) = m % 2 + 2 * (m / 2 % 2 ^ t) := by
  have h : (2 : Nat) ^ (t + 1) = 2 * 2 ^ t := by ring
  rw [h, Nat.mod_mul]

theorem bitsVal_byte (data : List Nat) (B : Nat) : ∀ (t b : Nat), b + t ≤ 8 →
    bitsVal data (8 * B + b) t = (data.getD B 0 >>> b) % 2 ^ t := by
  intro t
  induction t with
  | zero => intro b _; simp [bitsVal, Nat.mod_one]
  | succ t ih =>
    intro b hbt
    have hdiv : (8 * B + b) / 8 = B := by omega
    have hmod : (8 * B + b) % 8 = b := by omega
    simp only [bitsVal, bitAt, hdiv, hmod]
    rw [mod_two_pow_succ_low]
    have h1 : 8 * B + b + 1 = 8 * B + (b + 1) := by omega
    rw [h1, ih (b + 1) (by omega), ← Nat.shiftRight_succ]

theorem bitsVal_full_byte (data : List Nat) (B : Nat) (h : data.getD B 0 < 256) :
    bitsVal data (8 * B) 8 = data.getD B 0 := by
  have h0 := bitsVal_byte data B 8 0 (by omega)
  rw [Nat.add_zero, Nat.shiftRight_zero] at h0
  rw [h0]
  exact Nat.mod_eq_of_lt h

theorem readBitsWhole_lt8 (data : List Nat) (c o sh B : Nat) (h : c < 8) :
    readBitsWhole data c o sh B = (o, B, sh, c, false) := by
  interval_cases c <;> rfl

theorem readBitsWhole_step (data : List Nat) (c o sh B : Nat) :
    readBitsWhole data (c + 8) o sh B =
      if B ≥ data.length then (o, B, sh, c + 8, true)
      else readBitsWhole data c (o ||| ((data.getD B 0) <<< sh)) (sh + 8) (B + 1) := rfl

theorem getD_lt_256 (data : List Nat) (hbytes : ∀ x ∈ data, x < 256) (B : Nat) :
    data.getD B 0 < 256 := by
  rcases Nat.lt_or_ge B data.length with h | h
  · rw [List.getD_eq_getElem _ _ h]
    exact hbytes _ (List.getElem_mem h)
  · rw [List.getD_eq_default _ _ h]
    omega

theorem bitsVal_byte0 (data : List Nat) (B t : Nat) (h : t ≤ 8) :
    bitsVal data (8 * B) t = data.getD B 0 % 2 ^ t := by
  have h0 := bitsVal_byte data B t 0 (by omega)
  rwa [Nat.add_zero, Nat.shiftRight_zero] at h0

/-- Value computed by the whole-byte loop of `readBits` followed by the final
partial-byte tail, starting from a byte boundary. -/
theorem wholeTail_value (data : List Nat) (hbytes : ∀ x ∈ data, x < 256)
    (B1 c1 sh o1 : Nat) (hc1 : c1 ≤ 15) (ho1 : o1 < 2 ^ sh)
    (o2 B2 s2 c2 : Nat) (e2 : Bool)
    (hW : readBitsWhole data c1 o1 sh B1 = (o2, B2, s2, c2, e2)) :
    (if e2 then o2
     else if c2 > 0 ∧ B2 < data.length then
       o2 ||| (((data.getD B2 0) &&& (255 >>> (8 - c2))) <<< s2)
     else o2)
    = o1 + 2 ^ sh * bitsVal data (8 * B1) c1 := by
  rcases Nat.lt_or_ge c1 8 with hsm | hbig
  · rw [readBitsWhole_lt8 data c1 o1 sh B1 hsm] at hW
    simp only [Prod.mk.injEq] at hW
    obtain ⟨rfl, rfl, rfl, rfl, rfl⟩ := hW
    rw [if_neg Bool.false_ne_true]
    by_cases hcond : c1 > 0 ∧ B1 < data.length
    · rw [if_pos hcond]
      rw [mask255 c1 (by omega), Nat.and_pow_two_sub_one_eq_mod]
      rw [or_shift_add _ _ _ ho1]
      rw [bitsVal_byte0 data B1 c1 (by omega)]
    · rw [if_neg hcond]
      rcases Nat.eq_zero_or_pos c1 with h0 | hpos
      · subst h0; simp [bitsVal]
      · have hB1 : data.length ≤ B1 := by
          by_contra hlt
          exact hcond ⟨hpos, by omega⟩
        rw [bitsVal_past data c1 (8 * B1) (by omega)]
        simp
  · obtain ⟨c, rfl⟩ : ∃ c, c1 = c + 8 := ⟨c1 - 8, by omega⟩
    rw [readBitsWhole_step] at hW
    rcases Nat.lt_or_ge B1 data.length with hB1 | hB1
    · rw [if_neg (by omega)] at hW
      rw [readBitsWhole_lt8 data c _ (sh + 8) (B1 + 1) (by omega)] at hW
      simp only [Prod.mk.injEq] at hW
      obtain ⟨rfl, rfl, rfl, rfl, rfl⟩ := hW
      rw [if_neg Bool.false_ne_true]
      have hbB1 : data.getD B1 0 < 256 := getD_lt_256 data hbytes B1
      have hor : o1 ||| ((data.getD B1 0) <<< sh) = o1 + 2 ^ sh * data.getD B1 0 :=
        or_shift_add _ _ _ ho1
      have ho2b : o1 ||| ((data.getD B1 0) <<< sh) < 2 ^ (sh + 8) := by
        rw [hor, pow_add]
        nlinarith [pow_pos (show (0:Nat) < 2 by omega) sh]
      by_cases hcond : c > 0 ∧ B1 + 1 < data.length
      · rw [if_pos hcond]
        rw [mask255 c (by omega), Nat.and_pow_two_sub_one_eq_mod]
        rw [or_shift_add _ _ _ ho2b, hor]
        have hbv : bitsVal data (8 * B1) (c + 8) =
            data.getD B1 0 + 256 * (data.getD (B1 + 1) 0 % 2 ^ c) := by
          have he : c + 8 = 8 + c := by omega
          rw [he, bitsVal_split data 8 (8 * B1) c]
          rw [bitsVal_full_byte data B1 hbB1]
          have he2 : 8 * B1 + 8 = 8 * (B1 + 1) := by ring
          rw [he2, bitsVal_byte0 data (B1 + 1) c (by omega)]
          norm_num
        rw [hbv, pow_add]
        ring
      · rw [if_neg hcond]
        rw [hor]
        rcases Nat.eq_zero_or_pos c with h0 | hpos
        · subst h0
          have hbv : bitsVal data (8 * B1) (0 + 8) = data.getD B1 0 := by
            rw [Nat.zero_add]; exact bitsVal_full_byte data B1 hbB1
          rw [hbv]
        · have hB2 : data.length ≤ B1 + 1 := by
            by_contra hlt
            exact hcond ⟨hpos, by omega⟩
          have hbv : bitsVal data (8 * B1) (c + 8) = data.getD B1 0 := by
            have he : c + 8 = 8 + c := by omega
            rw [he, bitsVal_split data 8 (8 * B1) c, bitsVal_full_byte data B1 hbB1,
              bitsVal_past data c (8 * B1 + 8) (by omega), Nat.mul_zero, Nat.add_zero]
          rw [hbv]
    · rw [if_pos (by omega)] at hW
      simp only [Prod.mk.injEq] at hW
      obtain ⟨rfl, rfl, rfl, rfl, rfl⟩ := hW
      rw [if_pos rfl]
      rw [bitsVal_past data (c + 8) (8 * B1) (by omega)]
      simp

theorem fstBranches (data : List Nat) (o2 B2 s2 c2 bi V : Nat) (e2 : Bool)
    (h : (if e2 then o2
          else if c2 > 0 ∧ B2 < data.length then
            o2 ||| (((data.getD B2 0) &&& (255 >>> (8 - c2))) <<< s2)
          else o2) = V) :
    ((if e2 then (o2, (⟨B2, bi⟩ : BitOffset))
      else if c2 > 0 ∧ B2 < data.length then
        (o2 ||| (((data.getD B2 0) &&& (255 >>> (8 - c2))) <<< s2), (⟨B2, c2⟩ : BitOffset))
      else (o2, (⟨B2, bi⟩ : BitOffset))).1) = V := by
  cases e2
  · rw [if_neg Bool.false_ne_true] at h ⊢
    by_cases hcond : c2 > 0 ∧ B2 < data.length
    · rw [if_pos hcond] at h ⊢; exact h
    · rw [if_neg hcond] at h ⊢; exact h
  · rw [if_pos rfl] at h ⊢; exact h

/-- The value returned by `readBits` is the `count`-bit little-endian value of
the stream bits starting at bit position `8*B + b`, for any read of at most
15 bits (every `readHuffmanCode` peek satisfies this). -/
theorem readBits_value (data : List Nat) (hbytes : ∀ x ∈ data, x < 256)
    (B b count : Nat) (hb : b < 8) (hc : count ≤ 15) :
    (readBits data ⟨B, b⟩ count).1 = bitsVal data (8 * B + b) count := by
  rcases Nat.lt_or_ge B data.length with hB | hB
  · unfold readBits
    rw [if_neg (show ¬(B ≥ data.length) by omega)]
    by_cases hb0 : b = 0
    · subst hb0
      rw [if_neg (show ¬((0 : Nat) ≠ 0) by simp)]
      dsimp only
      rcases hW : readBitsWhole data count 0 0 B with ⟨o2, B2, s2, c2, e2⟩
      dsimp only
      have hval := wholeTail_value data hbytes B count 0 0 hc (by norm_num)
        o2 B2 s2 c2 e2 hW
      have hr : 0 + 2 ^ 0 * bitsVal data (8 * B) count = bitsVal data (8 * B + 0) count := by
        simp
      exact fstBranches data o2 B2 s2 c2 0 _ e2 (hval.trans hr)
    · rw [if_pos (show ((⟨B, b⟩ : BitOffset).bitOffset ≠ 0) from hb0)]
      dsimp only
      by_cases hcnt : count ≤ 8 - b
      · rw [Nat.min_eq_right hcnt]
        have houtv : (data.getD B 0 >>> b) &&& (255 >>> (8 - count)) =
            bitsVal data (8 * B + b) count := by
          rw [mask255 count (by omega), Nat.and_pow_two_sub_one_eq_mod]
          exact (bitsVal_byte data B count b (by omega)).symm
        rw [houtv, Nat.sub_self]
        by_cases h8 : b + count = 8
        · rw [if_pos h8]
          dsimp only
          rcases hW : readBitsWhole data 0 (bitsVal data (8 * B + b) count) count (B + 1)
            with ⟨o2, B2, s2, c2, e2⟩
          dsimp only
          have hval := wholeTail_value data hbytes (B + 1) 0 count _ (by omega)
            (bitsVal_lt data count (8 * B + b)) o2 B2 s2 c2 e2 hW
          have hr : bitsVal data (8 * B + b) count + 2 ^ count * bitsVal data (8 * (B + 1)) 0 =
              bitsVal data (8 * B + b) count := by
            simp [bitsVal]
          exact fstBranches data o2 B2 s2 c2 0 _ e2 (hval.trans hr)
        · rw [if_neg h8]
          dsimp only
          rcases hW : readBitsWhole data 0 (bitsVal data (8 * B + b) count) count B
            with ⟨o2, B2, s2, c2, e2⟩
          dsimp only
          have hval := wholeTail_value data hbytes B 0 count _ (by omega)
            (bitsVal_lt data count (8 * B + b)) o2 B2 s2 c2 e2 hW
          have hr : bitsVal data (8 * B + b) count + 2 ^ count * bitsVal data (8 * B) 0 =
              bitsVal data (8 * B + b) count := by
            simp [bitsVal]
          exact fstBranches data o2 B2 s2 c2 (b + count) _ e2 (hval.trans hr)
      · rw [Nat.min_eq_left (by omega)]
        have houtv : (data.getD B 0 >>> b) &&& (255 >>> (8 - (8 - b))) =
            bitsVal data (8 * B + b) (8 - b) := by
          rw [mask255 (8 - b) (by omega), Nat.and_pow_two_sub_one_eq_mod]
          exact (bitsVal_byte data B (8 - b) b (by omega)).symm
        rw [houtv]
        rw [if_pos (show b + (8 - b) = 8 by omega)]
        dsimp only
        rcases hW : readBitsWhole data (count - (8 - b)) (bitsVal data (8 * B + b) (8 - b))
            (8 - b) (B + 1) with ⟨o2, B2, s2, c2, e2⟩
        dsimp only
        have hval := wholeTail_value data hbytes (B + 1) (count - (8 - b)) (8 - b) _
          (by omega) (bitsVal_lt data (8 - b) (8 * B + b)) o2 B2 s2 c2 e2 hW
        have hr : bitsVal data (8 * B + b) (8 - b) +
            2 ^ (8 - b) * bitsVal data (8 * (B + 1)) (count - (8 - b)) =
            bitsVal data (8 * B + b) count := by
          have h1 := bitsVal_split data (8 - b) (8 * B + b) (count - (8 - b))
          have he : (8 - b) + (count - (8 - b)) = count := by omega
          have he2 : 8 * B + b + (8 - b) = 8 * (B + 1) := by omega
          rw [he, he2] at h1
          exact h1.symm
        exact fstBranches data o2 B2 s2 c2 0 _ e2 (hval.trans hr)
  · unfold readBits
    rw [if_pos (show B ≥ data.length by omega)]
    dsimp only
    rw [bitsVal_past data count (8 * B + b) (by omega)]

/-! ## Standard m-bit reversal and correctness of `reverseBits` -/

theorem bitLen_ne (v : Nat) (h : v ≠ 0) : bitLen v = bitLen (v / 2) + 1 := by
  obtain ⟨w, rfl⟩ : ∃ w, v = w + 1 := ⟨v - 1, by omega⟩
  rw [bitLen]

theorem lt_two_pow_bitLen (v : Nat) : v < 2 ^ bitLen v := by
  induction v using Nat.strong_induction_on with
  | _ v ih =>
    rcases Nat.eq_zero_or_pos v with h0 | hpos
    · subst h0; simp [bitLen]
    · rw [bitLen_ne v (by omega)]
      have h2 := ih (v / 2) (Nat.div_lt_self hpos (by omega))
      have : 2 ^ (bitLen (v / 2) + 1) = 2 * 2 ^ bitLen (v / 2) := by ring
      omega

theorem bitLen_le (v t : Nat) (h : v < 2 ^ t) : bitLen v ≤ t := by
  induction t generalizing v with
  | zero =>
    interval_cases v
    simp [bitLen]
  | succ t ih =>
    rcases Nat.eq_zero_or_pos v with h0 | hpos
    · subst h0; simp [bitLen]
    · rw [bitLen_ne v (by omega)]
      have hv2 : v / 2 < 2 ^ t := by
        have : 2 ^ (t + 1) = 2 * 2 ^ t := by ring
        omega
      have := ih (v / 2) hv2
      omega

theorem revBits_lt : ∀ (t v : Nat), revBits t v < 2 ^ t := by
  intro t
  induction t with
  | zero => intro v; simp [revBits]
  | succ t ih =>
    intro v
    have h1 : v % 2 ≤ 1 := by omega
    have h2 := ih (v / 2)
    simp only [revBits]
    have : 2 ^ (t + 1) = 2 * 2 ^ t := by ring
    nlinarith

theorem revBits_zero_val : ∀ (t : Nat), revBits t 0 = 0 := by
  intro t
  induction t with
  | zero => rfl
  | succ t ih => simp [revBits, ih]

theorem revBits_pad : ∀ (k : Nat) (u t : Nat), u < 2 ^ k → k ≤ t →
    revBits t u = revBits k u * 2 ^ (t - k) := by
  intro k
  induction k with
  | zero =>
    intro u t hu ht
    interval_cases u
    simp [revBits, revBits_zero_val]
  | succ k ih =>
    intro u t hu ht
    obtain ⟨t', rfl⟩ : ∃ t', t = t' + 1 := ⟨t - 1, by omega⟩
    have hu2 : u / 2 < 2 ^ k := by
      have : 2 ^ (k + 1) = 2 * 2 ^ k := by ring
      omega
    simp only [revBits]
    rw [ih (u / 2) t' hu2 (by omega)]
    have he : t' + 1 - (k + 1) = t' - k := by omega
    rw [he]
    have hp : 2 ^ t' = 2 ^ k * 2 ^ (t' - k) := by
      rw [← pow_add]
      congr 1
      omega
    rw [hp]
    ring

/-- Invariant of the `while (v)` loop of `reverseBits<uint16_t>`. -/
theorem revLoopGo_spec : ∀ (fuel v r s : Nat), v < 2 ^ fuel → bitLen v ≤ s →
    revLoopGo fuel v r s =
      ((r * 2 ^ bitLen v + revBits (bitLen v) v) * 2 ^ (s - bitLen v)) % 65536 := by
  intro fuel
  induction fuel with
  | zero =>
    intro v r s hv _
    interval_cases v
    simp [revLoopGo, bitLen, revBits, Nat.shiftLeft_eq]
  | succ fuel ih =>
    intro v r s hv hbl
    rcases Nat.eq_zero_or_pos v with h0 | hpos
    · subst h0
      simp [revLoopGo, bitLen, revBits, Nat.shiftLeft_eq]
    · have hne : v ≠ 0 := by omega
      rw [show revLoopGo (fuel + 1) v r s =
          revLoopGo fuel (v / 2) ((((r <<< 1) % 65536) ||| (v % 2)) % 65536) (s - 1) by
        rw [revLoopGo]; rw [if_neg hne]]
      have hv2 : v / 2 < 2 ^ fuel := by
        rcases Nat.eq_zero_or_pos fuel with hf0 | hfp
        · subst hf0
          interval_cases v
          · omega
        · have : 2 ^ fuel * 2 = 2 ^ (fuel + 1) := by ring
          have h2 : v < 2 ^ fuel * 2 := by omega
          omega
      have hblv := bitLen_ne v hne
      have hbl2 : bitLen (v / 2) ≤ s - 1 := by omega
      rw [ih (v / 2) _ (s - 1) hv2 hbl2]
      -- normalise the updated r
      have hr1 : (r <<< 1) % 65536 = 2 * (r % 32768) := by
        rw [Nat.shiftLeft_eq]
        have : r * 2 ^ 1 = 2 * r := by ring
        rw [this]
        have h65536 : (65536 : Nat) = 2 * 32768 := by norm_num
        rw [h65536, Nat.mul_mod_mul_left]
      have hor : 2 * (r % 32768) ||| v % 2 = 2 * (r % 32768) + v % 2 := by
        rw [Nat.or_comm]
        have := or_shift_add (v % 2) (r % 32768) 1 (by omega)
        rw [Nat.shiftLeft_eq] at this
        rw [show (r % 32768) * 2 ^ 1 = 2 * (r % 32768) by ring] at this
        rw [this]
        ring
      rw [hr1, hor]
      -- both sides mod 65536: absorb the inner mods
      set bl' := bitLen (v / 2) with hbl'
      have hmeq : (2 * (r % 32768) + v % 2) % 65536 ≡ 2 * r + v % 2 [MOD 65536] := by
        have h1 : (2 * (r % 32768) + v % 2) % 65536 ≡ 2 * (r % 32768) + v % 2 [MOD 65536] :=
          Nat.mod_modEq _ _
        have h2 : 2 * (r % 32768) ≡ 2 * r [MOD 65536] := by
          have he : 2 * (r % 32768) = 2 * r % 65536 := by
            have h65536 : (65536 : Nat) = 2 * 32768 := by norm_num
            rw [h65536, Nat.mul_mod_mul_left]
          rw [he]
          exact Nat.mod_modEq _ _
        exact h1.trans (h2.add_right _)
      have hfull : (((2 * (r % 32768) + v % 2) % 65536) * 2 ^ bl' + revBits bl' (v / 2)) *
            2 ^ (s - 1 - bl') ≡
          ((2 * r + v % 2) * 2 ^ bl' + revBits bl' (v / 2)) * 2 ^ (s - 1 - bl')
            [MOD 65536] :=
        ((hmeq.mul_right _).add_right _).mul_right _
      rw [hfull]
      -- pure arithmetic: fold the reversal step back in
      congr 1
      rw [hblv]
      simp only [revBits]
      have he2 : s - (bl' + 1) = s - 1 - bl' := by omega
      rw [he2]
      ring

set_option maxHeartbeats 1000000 in
theorem reverseBits16_eq (v : Nat) (hv : v < 65536) : reverseBits16 v = revBits 16 v := by
  unfold reverseBits16
  have hv2 : v / 2 < 2 ^ 16 := by omega
  have hbl : bitLen (v / 2) ≤ 15 := bitLen_le _ _ (by omega)
  rw [revLoopGo_spec 16 (v / 2) v 15 hv2 hbl]
  set k := bitLen (v / 2) with hk
  have hvk : v / 2 < 2 ^ k := lt_two_pow_bitLen (v / 2)
  have h16 : revBits 16 v = (v % 2) * 2 ^ 15 + revBits 15 (v / 2) := rfl
  have h15 : revBits 15 (v / 2) = revBits k (v / 2) * 2 ^ (15 - k) := revBits_pad k (v / 2) 15 hvk hbl
  have hval : (v * 2 ^ k + revBits k (v / 2)) * 2 ^ (15 - k) =
      v * 2 ^ 15 + revBits 15 (v / 2) := by
    rw [h15]
    have hp : 2 ^ k * 2 ^ (15 - k) = 2 ^ 15 := by
      rw [← pow_add]
      congr 1
      omega
    calc (v * 2 ^ k + revBits k (v / 2)) * 2 ^ (15 - k)
        = v * (2 ^ k * 2 ^ (15 - k)) + revBits k (v / 2) * 2 ^ (15 - k) := by ring
      _ = v * 2 ^ 15 + revBits k (v / 2) * 2 ^ (15 - k) := by rw [hp]
  rw [hval]
  have hsplit : v * 2 ^ 15 = (v / 2) * 65536 + (v % 2) * 2 ^ 15 := by
    have hv' : v = 2 * (v / 2) + v % 2 := by omega
    calc v * 2 ^ 15 = (2 * (v / 2) + v % 2) * 2 ^ 15 := by rw [← hv']
      _ = (v / 2) * 65536 + (v % 2) * 2 ^ 15 := by norm_num; ring
  rw [hsplit]
  have hlt : (v % 2) * 2 ^ 15 + revBits 15 (v / 2) < 65536 := by
    have h1 : v % 2 ≤ 1 := by omega
    have h2 := revBits_lt 15 (v / 2)
    norm_num at h2 ⊢
    omega
  rw [add_assoc, Nat.mul_comm (v / 2) 65536, Nat.mul_add_mod, Nat.mod_eq_of_lt hlt, h16]

theorem reverseBitsV_eq (v m : Nat) (hv : v < 2 ^ m) (hm : m ≤ 16) :
    reverseBitsV v m = revBits m v := by
  unfold reverseBitsV
  have hv16 : v < 65536 := by
    have : (2:Nat) ^ m ≤ 2 ^ 16 := Nat.pow_le_pow_right (by omega) hm
    norm_num at this
    omega
  rw [reverseBits16_eq v hv16]
  rw [revBits_pad m v 16 hv hm]
  rw [Nat.shiftRight_eq_div_pow]
  exact Nat.mul_div_cancel _ (Nat.pos_pow_of_pos _ (by omega))

theorem revBits_testBit : ∀ (m v j : Nat), j < m →
    (revBits m v).testBit j = v.testBit (m - 1 - j) := by
  intro m
  induction m with
  | zero => intro v j hj; omega
  | succ m ih =>
    intro v j hj
    simp only [revBits]
    have hR := revBits_lt m (v / 2)
    rcases Nat.lt_or_ge j m with hjm | hjm
    · -- low bits come from the reversed tail
      have hmod : (v % 2 * 2 ^ m + revBits m (v / 2)) % 2 ^ m = revBits m (v / 2) := by
        rw [Nat.mul_comm (v % 2) (2 ^ m), Nat.mul_add_mod, Nat.mod_eq_of_lt hR]
      have h1 : (v % 2 * 2 ^ m + revBits m (v / 2)).testBit j = (revBits m (v / 2)).testBit j := by
        have h2 := Nat.testBit_mod_two_pow (v % 2 * 2 ^ m + revBits m (v / 2)) m j
        rw [hmod] at h2
        rw [h2]
        simp [hjm]
      rw [h1, ih (v / 2) j hjm, Nat.testBit_div_two]
      congr 1
      omega
    · -- j = m: the top bit is v's low bit
      have hjm' : j = m := by omega
      subst hjm'
      rw [Nat.testBit_to_div_mod, Nat.testBit_to_div_mod]
      have hdiv : (v % 2 * 2 ^ j + revBits j (v / 2)) / 2 ^ j = v % 2 := by
        rw [Nat.add_comm, Nat.mul_comm (v % 2) (2 ^ j),
          Nat.add_mul_div_left _ _ (Nat.pos_pow_of_pos _ (by omega)),
          Nat.div_eq_of_lt hR, Nat.zero_add]
      rw [hdiv]
      have he : j + 1 - 1 - j = 0 := by omega
      rw [he]
      norm_num

theorem revBits_revBits (m v : Nat) (hv : v < 2 ^ m) : revBits m (revBits m v) = v := by
  apply Nat.eq_of_testBit_eq
  intro i
  rcases Nat.lt_or_ge i m with him | him
  · rw [revBits_testBit m _ i him, revBits_testBit m v (m - 1 - i) (by omega)]
    congr 1
    omega
  · have h1 : (revBits m (revBits m v)).testBit i = false :=
      Nat.testBit_lt_two_pow (lt_of_lt_of_le (revBits_lt m _) (Nat.pow_le_pow_right (by omega) him))
    have h2 : v.testBit i = false :=
      Nat.testBit_lt_two_pow (lt_of_lt_of_le hv (Nat.pow_le_pow_right (by omega) him))
    rw [h1, h2]

theorem foldl_max_init_le : ∀ (l : List Nat) (c : Nat), c ≤ l.foldl max c := by
  intro l
  induction l with
  | nil => simp
  | cons d l ihd =>
    intro c
    simp only [List.foldl_cons]
    exact le_trans (le_max_left c d) (ihd (max c d))

theorem le_foldl_max (l : List Nat) : ∀ (a x : Nat), x ∈ l → x ≤ l.foldl max a := by
  induction l with
  | nil => intro a x hx; simp at hx
  | cons b l ih =>
    intro a x hx
    rcases List.mem_cons.mp hx with rfl | hx'
    · exact le_trans (le_max_right a x) (foldl_max_init_le l (max a x))
    · exact ih (max a b) x hx'

theorem foldl_max_le (l : List Nat) : ∀ (a m : Nat), a ≤ m → (∀ x ∈ l, x ≤ m) →
    l.foldl max a ≤ m := by
  induction l with
  | nil => intro a m ha _; simpa using ha
  | cons b l ih =>
    intro a m ha hx
    simp only [List.foldl_cons]
    exact ih (max a b) m (max_le ha (hx b (by simp))) (fun x h => hx x (by simp [h]))

theorem symLen_le_maxLen (lengths : List Nat) (s : Nat) (hs : s < lengths.length) :
    symLen lengths s ≤ maxLenOf lengths := by
  unfold symLen maxLenOf
  rw [List.getD_eq_getElem _ _ hs]
  exact le_foldl_max lengths 0 _ (List.getElem_mem hs)

theorem maxLen_le_15 (lengths : List Nat) (h : ∀ l ∈ lengths, l ≤ 15) :
    maxLenOf lengths ≤ 15 :=
  foldl_max_le lengths 0 15 (by omega) h

theorem countBelow_zero (lengths : List Nat) (L : Nat) : countBelow lengths 0 L = 0 := by
  simp [countBelow]

theorem countBelow_succ (lengths : List Nat) (x L : Nat) (hx : x < lengths.length) :
    countBelow lengths (x + 1) L =
      countBelow lengths x L + (if lengths.getD x 0 = L then 1 else 0) := by
  unfold countBelow
  rw [List.take_succ]
  rw [List.getElem?_eq_getElem hx]
  simp only [Option.toList_some, List.count_append]
  rw [List.getD_eq_getElem _ _ hx]
  by_cases h : lengths[x] = L
  · simp [h, List.count_singleton]
  · simp [h, List.count_singleton]

theorem countBelow_le_count (lengths : List Nat) (x L : Nat) :
    countBelow lengths x L ≤ lengths.count L := by
  conv_rhs => rw [← List.take_append_drop x lengths]
  rw [List.count_append]
  exact Nat.le_add_right _ _

theorem kraftPS_succ (lengths : List Nat) (L : Nat) :
    kraftPS lengths (L + 1) =
      kraftPS lengths L + lengthCount lengths L * 2 ^ (maxLenOf lengths - L) := by
  unfold kraftPS
  rw [Finset.sum_range_succ]

theorem kraftPS_mono (lengths : List Nat) (L L' : Nat) (h : L ≤ L') :
    kraftPS lengths L ≤ kraftPS lengths L' := by
  unfold kraftPS
  exact Finset.sum_le_sum_of_subset (Finset.range_subset.mpr h)

theorem fcR_mul_eq_PS (lengths : List Nat) :
    ∀ (L : Nat), L ≤ maxLenOf lengths →
      fcR lengths L * 2 ^ (maxLenOf lengths - L) = kraftPS lengths L := by
  intro L
  induction L with
  | zero => intro _; simp [fcR, kraftPS]
  | succ L ih =>
    intro hL
    rw [kraftPS_succ]
    rw [← ih (by omega)]
    show (fcR lengths L + lengthCount lengths L) * 2 * 2 ^ (maxLenOf lengths - (L + 1)) = _
    have hp : 2 * 2 ^ (maxLenOf lengths - (L + 1)) = 2 ^ (maxLenOf lengths - L) := by
      rw [← pow_succ']
      congr 1
      omega
    rw [mul_assoc, hp]
    ring

theorem fcR_cnt_eq_PS (lengths : List Nat) :
    ∀ (L : Nat), L ≤ maxLenOf lengths →
      (fcR lengths L + lengthCount lengths L) * 2 ^ (maxLenOf lengths - L) =
        kraftPS lengths (L + 1) := by
  intro L hL
  rw [kraftPS_succ, ← fcR_mul_eq_PS lengths L hL]
  ring

theorem fcR_cnt_le_pow (lengths : List Nat)
    (hkraft : kraftPS lengths (maxLenOf lengths + 1) ≤ 2 ^ maxLenOf lengths)
    (L : Nat) (hL : L ≤ maxLenOf lengths) :
    fcR lengths L + lengthCount lengths L ≤ 2 ^ L := by
  have h1 := fcR_cnt_eq_PS lengths L hL
  have h2 : kraftPS lengths (L + 1) ≤ 2 ^ maxLenOf lengths :=
    le_trans (kraftPS_mono lengths (L + 1) (maxLenOf lengths + 1) (by omega)) hkraft
  have h3 : (2 : Nat) ^ maxLenOf lengths = 2 ^ L * 2 ^ (maxLenOf lengths - L) := by
    rw [← pow_add]
    congr 1
    omega
  rw [h3] at h2
  rw [← h1] at h2
  exact Nat.le_of_mul_le_mul_right h2 (Nat.pos_pow_of_pos _ (by omega))

theorem firstCode_eq_fcR (lengths : List Nat)
    (h15 : maxLenOf lengths ≤ 15)
    (hkraft : kraftPS lengths (maxLenOf lengths + 1) ≤ 2 ^ maxLenOf lengths) :
    ∀ (L : Nat), L ≤ maxLenOf lengths → firstCode lengths L = fcR lengths L := by
  intro L
  induction L with
  | zero => intro _; rfl
  | succ L ih =>
    intro hL
    show ((firstCode lengths L + lengthCount lengths L) * 2) % 65536 = _
    rw [ih (by omega)]
    have hb := fcR_cnt_le_pow lengths hkraft L (by omega)
    have hlt : (fcR lengths L + lengthCount lengths L) * 2 < 65536 := by
      have h2 : (2 : Nat) ^ L ≤ 2 ^ 14 := Nat.pow_le_pow_right (by omega) (by omega)
      norm_num at h2
      omega
    rw [Nat.mod_eq_of_lt hlt]
    rfl

theorem countBelow_mono (l : List Nat) (x x' L : Nat) (h : x ≤ x') :
    countBelow l x L ≤ countBelow l x' L := by
  unfold countBelow
  conv_rhs => rw [← List.take_append_drop x (l.take x')]
  rw [List.count_append, List.take_take, min_eq_left h]
  exact Nat.le_add_right _ _

theorem cb_lt_count (lengths : List Nat) (s L : Nat) (hs : s < lengths.length)
    (hL : lengths.getD s 0 = L) :
    countBelow lengths s L + 1 ≤ lengths.count L := by
  have h1 := countBelow_succ lengths s L hs
  have h2 := countBelow_le_count lengths (s + 1) L
  rw [h1, if_pos hL] at h2
  omega

theorem codeOf_succ_le (lengths : List Nat) (s : Nat) (hs : s < lengths.length)
    (h0 : symLen lengths s ≠ 0) :
    codeOfSym lengths s + 1 ≤
      fcR lengths (symLen lengths s) + lengthCount lengths (symLen lengths s) := by
  unfold codeOfSym
  have h1 := cb_lt_count lengths s (symLen lengths s) hs rfl
  unfold lengthCount
  rw [if_neg h0]
  omega

/-- The interval of table slots belonging to symbol `s` stays inside the table. -/
theorem ljSlot_add_le (lengths : List Nat)
    (hkraft : kraftPS lengths (maxLenOf lengths + 1) ≤ 2 ^ maxLenOf lengths)
    (s : Nat) (hs : s < lengths.length) (h0 : symLen lengths s ≠ 0) :
    ljSlot lengths s + 2 ^ (maxLenOf lengths - symLen lengths s) ≤ 2 ^ maxLenOf lengths := by
  have hLM := symLen_le_maxLen lengths s hs
  have h1 : ljSlot lengths s + 2 ^ (maxLenOf lengths - symLen lengths s) =
      (codeOfSym lengths s + 1) * 2 ^ (maxLenOf lengths - symLen lengths s) := by
    unfold ljSlot
    ring
  have h2 := codeOf_succ_le lengths s hs h0
  have h3 := fcR_cnt_eq_PS lengths (symLen lengths s) hLM
  have h4 : kraftPS lengths (symLen lengths s + 1) ≤ kraftPS lengths (maxLenOf lengths + 1) :=
    kraftPS_mono lengths _ _ (by omega)
  calc ljSlot lengths s + 2 ^ (maxLenOf lengths - symLen lengths s)
      = (codeOfSym lengths s + 1) * 2 ^ (maxLenOf lengths - symLen lengths s) := h1
    _ ≤ (fcR lengths (symLen lengths s) + lengthCount lengths (symLen lengths s)) *
          2 ^ (maxLenOf lengths - symLen lengths s) := Nat.mul_le_mul_right _ h2
    _ = kraftPS lengths (symLen lengths s + 1) := h3
    _ ≤ kraftPS lengths (maxLenOf lengths + 1) := h4
    _ ≤ 2 ^ maxLenOf lengths := hkraft

/-- Distinct symbols occupy disjoint left-justified slot intervals. -/
theorem ljSlot_disjoint (lengths : List Nat)
    (hkraft : kraftPS lengths (maxLenOf lengths + 1) ≤ 2 ^ maxLenOf lengths)
    (s s' : Nat) (hs : s < lengths.length) (hs' : s' < lengths.length)
    (h0 : symLen lengths s ≠ 0) (h0' : symLen lengths s' ≠ 0) (hne : s' ≠ s) :
    ljSlot lengths s' < ljSlot lengths s ∨
      ljSlot lengths s + 2 ^ (maxLenOf lengths - symLen lengths s) ≤ ljSlot lengths s' := by
  have hLM := symLen_le_maxLen lengths s hs
  have hLM' := symLen_le_maxLen lengths s' hs'
  rcases lt_trichotomy (symLen lengths s') (symLen lengths s) with hlt | heq | hgt
  · -- shorter code for s': its whole interval lies before ljSlot s
    left
    have h1 : ljSlot lengths s' + 2 ^ (maxLenOf lengths - symLen lengths s') ≤
        kraftPS lengths (symLen lengths s' + 1) := by
      have h2 := codeOf_succ_le lengths s' hs' h0'
      have h3 := fcR_cnt_eq_PS lengths (symLen lengths s') hLM'
      calc ljSlot lengths s' + 2 ^ (maxLenOf lengths - symLen lengths s')
          = (codeOfSym lengths s' + 1) * 2 ^ (maxLenOf lengths - symLen lengths s') := by
            unfold ljSlot; ring
        _ ≤ (fcR lengths (symLen lengths s') + lengthCount lengths (symLen lengths s')) *
              2 ^ (maxLenOf lengths - symLen lengths s') := Nat.mul_le_mul_right _ h2
        _ = kraftPS lengths (symLen lengths s' + 1) := h3
    have h4 : kraftPS lengths (symLen lengths s' + 1) ≤ kraftPS lengths (symLen lengths s) :=
      kraftPS_mono lengths _ _ (by omega)
    have h5 : kraftPS lengths (symLen lengths s) ≤ ljSlot lengths s := by
      rw [← fcR_mul_eq_PS lengths (symLen lengths s) hLM]
      unfold ljSlot codeOfSym
      exact Nat.mul_le_mul_right _ (Nat.le_add_right _ _)
    have hp : 0 < 2 ^ (maxLenOf lengths - symLen lengths s') := Nat.pos_pow_of_pos _ (by omega)
    omega
  · -- equal lengths: canonical codes differ by at least one slot width
    rcases Nat.lt_or_ge s' s with hss | hss
    · left
      have hcb : countBelow lengths s' (symLen lengths s) + 1 ≤
          countBelow lengths s (symLen lengths s) := by
        have h1 := countBelow_succ lengths s' (symLen lengths s) hs'
        rw [if_pos (show lengths.getD s' 0 = symLen lengths s from heq)] at h1
        have h2 := countBelow_mono lengths (s' + 1) s (symLen lengths s) (by omega)
        omega
      have hcode : codeOfSym lengths s' + 1 ≤ codeOfSym lengths s := by
        unfold codeOfSym
        rw [heq]
        omega
      unfold ljSlot
      rw [heq]
      have hp : 0 < 2 ^ (maxLenOf lengths - symLen lengths s) := Nat.pos_pow_of_pos _ (by omega)
      have h1 : (codeOfSym lengths s' + 1) * 2 ^ (maxLenOf lengths - symLen lengths s) ≤
          codeOfSym lengths s * 2 ^ (maxLenOf lengths - symLen lengths s) :=
        Nat.mul_le_mul_right _ hcode
      have h2 : (codeOfSym lengths s' + 1) * 2 ^ (maxLenOf lengths - symLen lengths s) =
          codeOfSym lengths s' * 2 ^ (maxLenOf lengths - symLen lengths s) +
            2 ^ (maxLenOf lengths - symLen lengths s) := by ring
      omega
    · right
      have hss' : s < s' := by omega
      have hcb : countBelow lengths s (symLen lengths s) + 1 ≤
          countBelow lengths s' (symLen lengths s) := by
        have h1 := countBelow_succ lengths s (symLen lengths s) hs
        rw [if_pos (show lengths.getD s 0 = symLen lengths s from rfl)] at h1
        have h2 := countBelow_mono lengths (s + 1) s' (symLen lengths s) (by omega)
        omega
      have hcode : codeOfSym lengths s + 1 ≤ codeOfSym lengths s' := by
        unfold codeOfSym
        rw [heq]
        omega
      unfold ljSlot
      rw [heq]
      calc codeOfSym lengths s * 2 ^ (maxLenOf lengths - symLen lengths s) +
            2 ^ (maxLenOf lengths - symLen lengths s)
          = (codeOfSym lengths s + 1) * 2 ^ (maxLenOf lengths - symLen lengths s) := by ring
        _ ≤ codeOfSym lengths s' * 2 ^ (maxLenOf lengths - symLen lengths s) :=
            Nat.mul_le_mul_right _ hcode
  · -- longer code for s': it starts at or after the end of s's interval
    right
    have h1 : ljSlot lengths s + 2 ^ (maxLenOf lengths - symLen lengths s) ≤
        kraftPS lengths (symLen lengths s + 1) := by
      have h2 := codeOf_succ_le lengths s hs h0
      have h3 := fcR_cnt_eq_PS lengths (symLen lengths s) hLM
      calc ljSlot lengths s + 2 ^ (maxLenOf lengths - symLen lengths s)
          = (codeOfSym lengths s + 1) * 2 ^ (maxLenOf lengths - symLen lengths s) := by
            unfold ljSlot; ring
        _ ≤ (fcR lengths (symLen lengths s) + lengthCount lengths (symLen lengths s)) *
              2 ^ (maxLenOf lengths - symLen lengths s) := Nat.mul_le_mul_right _ h2
        _ = kraftPS lengths (symLen lengths s + 1) := h3
    have h4 : kraftPS lengths (symLen lengths s + 1) ≤ kraftPS lengths (symLen lengths s') :=
      kraftPS_mono lengths _ _ (by omega)
    have h5 : kraftPS lengths (symLen lengths s') ≤ ljSlot lengths s' := by
      rw [← fcR_mul_eq_PS lengths (symLen lengths s') hLM']
      unfold ljSlot codeOfSym
      exact Nat.mul_le_mul_right _ (Nat.le_add_right _ _)
    omega

theorem getD_map_range {α : Type} (f : Nat → α) (n i : Nat) (d : α) (hi : i < n) :
    ((List.range n).map f).getD i d = f i := by
  rw [List.getD_eq_getElem _ _ (by simpa using hi)]
  simp

theorem getD_replicate {α : Type} (k i : Nat) (a : α) :
    (List.replicate k a).getD i a = a := by
  rcases Nat.lt_or_ge i k with h | h
  · rw [List.getD_eq_getElem _ _ (by simpa using h)]
    simp
  · rw [List.getD_eq_default _ _ (by simpa using h)]

theorem placeState_succ (lengths : List Nat) (x : Nat) :
    placeState lengths (x + 1) =
      placeStep lengths (maxLenOf lengths) (placeState lengths x) x := by
  unfold placeState
  generalize ((List.range (maxLenOf lengths + 1)).map (firstCode lengths),
      List.replicate (2 ^ maxLenOf lengths) (⟨0, 0⟩ : HuffmanCode)) = init
  rw [List.range_succ, List.foldl_append]
  rfl

theorem makeTable_entries_eq (lengths : List Nat) :
    (makeTable lengths).entries =
      fillDown ((placeState lengths lengths.length).2.getD 0 ⟨0, 0⟩)
        (placeState lengths lengths.length).2 := rfl

/-- Invariant of the `makeTable` placement loop: `nextCode` tracks the
canonical code counters, placed slots hold their symbol, untouched slots stay
`⟨0, 0⟩`. -/
theorem placeState_invariant (lengths : List Nat)
    (h15 : ∀ l ∈ lengths, l ≤ 15)
    (hkraft : kraftPS lengths (maxLenOf lengths + 1) ≤ 2 ^ maxLenOf lengths) :
    ∀ (x : Nat), x ≤ lengths.length →
      ((placeState lengths x).1.length = maxLenOf lengths + 1) ∧
      (∀ L, 1 ≤ L → L ≤ maxLenOf lengths →
        (placeState lengths x).1.getD L 0 = fcR lengths L + countBelow lengths x L) ∧
      ((placeState lengths x).2.length = 2 ^ maxLenOf lengths) ∧
      (∀ s, s < x → symLen lengths s ≠ 0 →
        (placeState lengths x).2.getD (ljSlot lengths s) ⟨0, 0⟩ = ⟨s, symLen lengths s⟩) ∧
      (∀ i, (∀ s, s < x → symLen lengths s ≠ 0 → ljSlot lengths s ≠ i) →
        (placeState lengths x).2.getD i ⟨0, 0⟩ = ⟨0, 0⟩) := by
  intro x
  induction x with
  | zero =>
    intro _
    unfold placeState
    simp only [List.range_zero, List.foldl_nil]
    refine ⟨by simp, ?_, by simp, ?_, ?_⟩
    · intro L h1 h2
      rw [getD_map_range (firstCode lengths) _ L 0 (by omega)]
      rw [firstCode_eq_fcR lengths (maxLen_le_15 lengths h15) hkraft L h2]
      rw [countBelow_zero]
      omega
    · intro s hs
      omega
    · intro i _
      exact getD_replicate _ _ _
  | succ x ih =>
    intro hx1
    have hx : x < lengths.length := by omega
    obtain ⟨ih1len, ih1val, ih2len, ih3, ih4⟩ := ih (by omega)
    rw [placeState_succ]
    unfold placeStep
    by_cases hlen0 : lengths.getD x 0 = 0
    · rw [if_pos hlen0]
      refine ⟨ih1len, ?_, ih2len, ?_, ?_⟩
      · intro L h1 h2
        rw [ih1val L h1 h2, countBelow_succ lengths x L hx, if_neg (by omega)]
        omega
      · intro s hs h0
        rcases Nat.lt_or_ge s x with h | h
        · exact ih3 s h h0
        · have hsx : s = x := by omega
          subst hsx
          exact absurd hlen0 h0
      · intro i hi
        exact ih4 i (fun s hs h0 => hi s (by omega) h0)
    · rw [if_neg hlen0]
      dsimp only
      have hlen1 : 1 ≤ lengths.getD x 0 := by omega
      have hlenM : lengths.getD x 0 ≤ maxLenOf lengths := symLen_le_maxLen lengths x hx
      have hcode : (placeState lengths x).1.getD (lengths.getD x 0) 0 =
          fcR lengths (lengths.getD x 0) + countBelow lengths x (lengths.getD x 0) :=
        ih1val _ hlen1 hlenM
      rw [hcode]
      have hslot : (fcR lengths (lengths.getD x 0) + countBelow lengths x (lengths.getD x 0)) <<<
          (maxLenOf lengths - lengths.getD x 0) = ljSlot lengths x := by
        rw [Nat.shiftLeft_eq]
        rfl
      rw [hslot]
      have hp : 0 < 2 ^ (maxLenOf lengths - lengths.getD x 0) := Nat.pos_pow_of_pos _ (by omega)
      have hslot_lt : ljSlot lengths x < 2 ^ maxLenOf lengths := by
        have := ljSlot_add_le lengths hkraft x hx hlen0
        have hp' : 0 < 2 ^ (maxLenOf lengths - symLen lengths x) := Nat.pos_pow_of_pos _ (by omega)
        omega
      have hmod : (fcR lengths (lengths.getD x 0) + countBelow lengths x (lengths.getD x 0) + 1) %
          65536 = fcR lengths (lengths.getD x 0) + countBelow lengths x (lengths.getD x 0) + 1 := by
        apply Nat.mod_eq_of_lt
        have hb := fcR_cnt_le_pow lengths hkraft (lengths.getD x 0) hlenM
        have hcb := cb_lt_count lengths x (lengths.getD x 0) hx rfl
        have hlc : lengthCount lengths (lengths.getD x 0) = lengths.count (lengths.getD x 0) := by
          unfold lengthCount
          rw [if_neg hlen0]
        have h2 : (2 : Nat) ^ lengths.getD x 0 ≤ 32768 := by
          calc (2 : Nat) ^ lengths.getD x 0
              ≤ 2 ^ 15 := Nat.pow_le_pow_right (by omega)
                (le_trans hlenM (maxLen_le_15 lengths h15))
            _ = 32768 := by norm_num
        omega
      rw [hmod]
      refine ⟨by simp [ih1len], ?_, by simp [ih2len], ?_, ?_⟩
      · intro L h1 h2
        by_cases hL : L = lengths.getD x 0
        · subst hL
          rw [getD_set_self _ _ _ (by rw [ih1len]; omega)]
          rw [countBelow_succ lengths x (lengths.getD x 0) hx, if_pos rfl]
          omega
        · rw [getD_set_ne _ _ _ (fun h => hL h.symm)]
          rw [ih1val L h1 h2, countBelow_succ lengths x L hx, if_neg (by omega)]
          omega
      · intro s hs h0
        rcases Nat.lt_or_ge s x with h | h
        · have hd := ljSlot_disjoint lengths hkraft s x (by omega) hx h0 hlen0 (by omega)
          have hps : 0 < 2 ^ (maxLenOf lengths - symLen lengths s) := Nat.pos_pow_of_pos _ (by omega)
          have hne' : ljSlot lengths x ≠ ljSlot lengths s := by omega
          rw [getD_set_ne _ _ _ hne']
          exact ih3 s h h0
        · have hsx : s = x := by omega
          subst hsx
          rw [getD_set_self _ _ _ (by rw [ih2len]; exact hslot_lt)]
          rfl
      · intro i hi
        rw [getD_set_ne _ _ _ (hi x (by omega) hlen0)]
        exact ih4 i (fun s hs h0 => hi s (by omega) h0)

theorem fillDown_length : ∀ (l : List HuffmanCode) (last : HuffmanCode),
    (fillDown last l).length = l.length := by
  intro l
  induction l with
  | nil => intro last; rfl
  | cons c rest ih =>
    intro last
    unfold fillDown
    by_cases hc : c.bits = 0
    · rw [if_pos hc]
      simp [ih]
    · rw [if_neg hc]
      simp [ih]

theorem fillDown_all_zero : ∀ (l : List HuffmanCode) (last : HuffmanCode) (i : Nat),
    i < l.length → (∀ k, k ≤ i → (l.getD k ⟨0, 0⟩).bits = 0) →
    (fillDown last l).getD i ⟨0, 0⟩ = last := by
  intro l
  induction l with
  | nil => intro last i hi _; simp at hi
  | cons c rest ih =>
    intro last i hi hz
    have hc : c.bits = 0 := by
      have := hz 0 (by omega)
      simpa using this
    unfold fillDown
    rw [if_pos hc]
    rcases Nat.eq_zero_or_pos i with h0 | hpos
    · subst h0
      rfl
    · obtain ⟨i', rfl⟩ : ∃ i', i = i' + 1 := ⟨i - 1, by omega⟩
      rw [List.getD_cons_succ]
      exact ih last i' (by simpa using hi) (fun k hk => by
        have := hz (k + 1) (by omega)
        simpa using this)

theorem fillDown_from : ∀ (l : List HuffmanCode) (last : HuffmanCode) (j i : Nat),
    j ≤ i → i < l.length → (l.getD j ⟨0, 0⟩).bits ≠ 0 →
    (∀ k, j < k → k ≤ i → (l.getD k ⟨0, 0⟩).bits = 0) →
    (fillDown last l).getD i ⟨0, 0⟩ = l.getD j ⟨0, 0⟩ := by
  intro l
  induction l with
  | nil => intro last j i _ hi _ _; simp at hi
  | cons c rest ih =>
    intro last j i hji hi hj hz
    rcases Nat.eq_zero_or_pos j with hj0 | hjpos
    · subst hj0
      have hc : c.bits ≠ 0 := by simpa using hj
      unfold fillDown
      rw [if_neg hc]
      rcases Nat.eq_zero_or_pos i with h0 | hpos
      · subst h0
        rfl
      · obtain ⟨i', rfl⟩ : ∃ i', i = i' + 1 := ⟨i - 1, by omega⟩
        rw [List.getD_cons_succ, List.getD_cons_zero]
        exact fillDown_all_zero rest c i' (by simpa using hi) (fun k hk => by
          have := hz (k + 1) (by omega) (by omega)
          simpa using this)
    · obtain ⟨j', rfl⟩ : ∃ j', j = j' + 1 := ⟨j - 1, by omega⟩
      obtain ⟨i', rfl⟩ : ∃ i', i = i' + 1 := ⟨i - 1, by omega⟩
      have htail : ∀ (last' : HuffmanCode),
          (fillDown last' (c :: rest)).getD (i' + 1) ⟨0, 0⟩ =
            (fillDown (if c.bits = 0 then last' else c) rest).getD i' ⟨0, 0⟩ := by
        intro last'
        by_cases hc : c.bits = 0
        · rw [if_pos hc,
            show fillDown last' (c :: rest) = last' :: fillDown last' rest by
              rw [fillDown, if_pos hc],
            List.getD_cons_succ]
        · rw [if_neg hc,
            show fillDown last' (c :: rest) = c :: fillDown c rest by
              rw [fillDown, if_neg hc],
            List.getD_cons_succ]
      rw [htail last, List.getD_cons_succ]
      exact ih _ j' i' (by omega) (by simpa using hi) (by simpa using hj) (fun k h1 h2 => by
        have := hz (k + 1) (by omega) (by omega)
        simpa using this)

theorem placeState_2_length (lengths : List Nat) : ∀ (x : Nat),
    (placeState lengths x).2.length = 2 ^ maxLenOf lengths := by
  intro x
  induction x with
  | zero => simp [placeState]
  | succ x ih =>
    rw [placeState_succ]
    unfold placeStep
    by_cases h : lengths.getD x 0 = 0
    · rw [if_pos h]
      exact ih
    · rw [if_neg h]
      simp [ih]

theorem makeTable_maxBits (lengths : List Nat) :
    (makeTable lengths).maxBits = maxLenOf lengths := rfl

theorem makeTable_entries_length (lengths : List Nat) :
    (makeTable lengths).entries.length = 2 ^ maxLenOf lengths := by
  rw [makeTable_entries_eq, fillDown_length, placeState_2_length]

/-- Every slot in the left-justified interval of symbol `s` decodes to
`⟨s, len s⟩` after the fill-down pass of `makeTable`. -/
theorem makeTable_slot (lengths : List Nat) (hv : ValidLengths lengths) (s e : Nat)
    (hs : s < lengths.length) (h0 : symLen lengths s ≠ 0)
    (he : e < 2 ^ (maxLenOf lengths - symLen lengths s)) :
    (makeTable lengths).entries.getD (ljSlot lengths s + e) ⟨0, 0⟩ =
      ⟨s, symLen lengths s⟩ := by
  obtain ⟨h15, hkraft⟩ := hv
  obtain ⟨p1len, p1val, p2len, p3, p4⟩ :=
    placeState_invariant lengths h15 hkraft lengths.length (le_refl _)
  rw [makeTable_entries_eq]
  have hj := p3 s hs h0
  have hilen : ljSlot lengths s + e < (placeState lengths lengths.length).2.length := by
    rw [p2len]
    have := ljSlot_add_le lengths hkraft s hs h0
    omega
  have hkzero : ∀ k, ljSlot lengths s < k → k ≤ ljSlot lengths s + e →
      ((placeState lengths lengths.length).2.getD k ⟨0, 0⟩).bits = 0 := by
    intro k hk1 hk2
    have hk4 : (placeState lengths lengths.length).2.getD k ⟨0, 0⟩ = ⟨0, 0⟩ := by
      apply p4
      intro s' hs' h0' heq
      by_cases hss : s' = s
      · subst hss
        omega
      · have hd := ljSlot_disjoint lengths hkraft s s' hs hs' h0 h0' hss
        omega
    rw [hk4]
  have hmain := fillDown_from (placeState lengths lengths.length).2
    ((placeState lengths lengths.length).2.getD 0 ⟨0, 0⟩)
    (ljSlot lengths s) (ljSlot lengths s + e) (Nat.le_add_right _ _) hilen
    (by rw [hj]; exact h0) hkzero
  rw [hmain, hj]

theorem setFold_length {α : Type} (f : Nat → Nat) (g : Nat → α) :
    ∀ (l : List Nat) (acc : List α),
      (l.foldl (fun a x => a.set (f x) (g x)) acc).length = acc.length := by
  intro l
  induction l with
  | nil => intro acc; rfl
  | cons b l ih =>
    intro acc
    simp only [List.foldl_cons]
    rw [ih]
    simp

theorem setFold_getD {α : Type} (d : α) (f : Nat → Nat) (g : Nat → α) :
    ∀ (l : List Nat) (acc : List α) (y x₀ : Nat),
      x₀ ∈ l → f x₀ = y → (∀ x ∈ l, f x = y → x = x₀) → y < acc.length →
      (l.foldl (fun a x => a.set (f x) (g x)) acc).getD y d = g x₀ := by
  intro l
  induction l using List.reverseRecOn with
  | nil =>
    intro acc y x₀ hmem
    simp at hmem
  | append_singleton l x ih =>
    intro acc y x₀ hmem hfx huniq hy
    rw [List.foldl_append]
    simp only [List.foldl_cons, List.foldl_nil]
    by_cases hxx : x = x₀
    · subst hxx
      rw [hfx]
      exact getD_set_self _ _ _ (by rw [setFold_length]; omega)
    · have hfne : f x ≠ y := fun h => hxx (huniq x (by simp) h)
      rw [getD_set_ne _ _ _ hfne]
      have hx₀l : x₀ ∈ l := by
        rcases List.mem_append.mp hmem with h | h
        · exact h
        · simp at h
          exact absurd h.symm hxx
      exact ih acc y x₀ hx₀l hfx (fun x' hx' h' => huniq x' (by simp [hx']) h') hy

/-- `invertTableBits` reads: slot `y` of the inverted table is slot
`revBits m y` of the original. -/
theorem invert_getD (t : HuffmanTable) (m : Nat) (hm : t.maxBits = m)
    (hlen : t.entries.length = 2 ^ m) (hm16 : m ≤ 16) (y : Nat) (hy : y < 2 ^ m) :
    (invertTableBits t).entries.getD y ⟨0, 0⟩ = t.entries.getD (revBits m y) ⟨0, 0⟩ := by
  unfold invertTableBits
  dsimp only
  have hfold : ∀ (l : List Nat) (acc : List HuffmanCode), (∀ x ∈ l, x < 2 ^ m) →
      List.foldl (fun acc x => acc.set (reverseBitsV x t.maxBits) (t.entries.getD x ⟨0, 0⟩))
        acc l =
      List.foldl (fun acc x => acc.set (revBits m x) (t.entries.getD x ⟨0, 0⟩)) acc l := by
    intro l
    induction l with
    | nil => intro acc _; rfl
    | cons a l ih =>
      intro acc hmem
      simp only [List.foldl_cons]
      rw [show reverseBitsV a t.maxBits = revBits m a from by
        rw [hm]; exact reverseBitsV_eq a m (hmem a (by simp)) hm16]
      exact ih _ (fun x hx => hmem x (by simp [hx]))
  rw [hlen, hfold _ _ (fun x hx => List.mem_range.mp hx)]
  exact setFold_getD ⟨0, 0⟩ (revBits m) (fun x => t.entries.getD x ⟨0, 0⟩)
    (List.range (2 ^ m)) t.entries y (revBits m y)
    (List.mem_range.mpr (revBits_lt m y))
    (revBits_revBits m y hy)
    (fun x hx hfx => by
      have hxlt : x < 2 ^ m := List.mem_range.mp hx
      calc x = revBits m (revBits m x) := (revBits_revBits m x hxlt).symm
        _ = revBits m y := by rw [hfx])
    (by rw [hlen]; exact hy)

theorem revBits_bitsVal (data : List Nat) : ∀ (m pos : Nat),
    revBits m (bitsVal data pos m) = msbVal data pos m := by
  intro m
  induction m with
  | zero => intro pos; rfl
  | succ m ih =>
    intro pos
    simp only [revBits, bitsVal, msbVal]
    have hb := bitAt_le_one data pos
    have h1 : (bitAt data pos + 2 * bitsVal data (pos + 1) m) % 2 = bitAt data pos := by omega
    have h2 : (bitAt data pos + 2 * bitsVal data (pos + 1) m) / 2 = bitsVal data (pos + 1) m := by
      omega
    rw [h1, h2, ih]

theorem shiftRight_mod_pow_mod_two (c L k : Nat) (hk : k < L) :
    ((c % 2 ^ L) >>> k) % 2 = (c >>> k) % 2 := by
  have h1 := Nat.testBit_mod_two_pow c L k
  rw [Nat.testBit_to_div_mod, Nat.testBit_to_div_mod] at h1
  simp [hk] at h1
  have ha : (c % 2 ^ L) / 2 ^ k % 2 = 1 ↔ c / 2 ^ k % 2 = 1 := h1
  rw [Nat.shiftRight_eq_div_pow, Nat.shiftRight_eq_div_pow]
  have hA : (c % 2 ^ L) / 2 ^ k % 2 < 2 := Nat.mod_lt _ (by omega)
  have hB : c / 2 ^ k % 2 < 2 := Nat.mod_lt _ (by omega)
  by_cases h : c / 2 ^ k % 2 = 1
  · rw [h, ha.mpr h]
  · have hB0 : c / 2 ^ k % 2 = 0 := by omega
    have hA0 : (c % 2 ^ L) / 2 ^ k % 2 = 0 := by
      by_contra hne
      exact h (ha.mp (by omega))
    rw [hA0, hB0]

theorem msbVal_code (data : List Nat) : ∀ (L pos c : Nat),
    (∀ t, t < L → bitAt data (pos + t) = (c >>> (L - 1 - t)) % 2) →
    msbVal data pos L = c % 2 ^ L := by
  intro L
  induction L with
  | zero => intro pos c _; simp [msbVal, Nat.mod_one]
  | succ L ih =>
    intro pos c hbits
    simp only [msbVal]
    have h0 : bitAt data pos = (c >>> L) % 2 := by
      have := hbits 0 (by omega)
      simpa using this
    have hrest : ∀ t, t < L →
        bitAt data (pos + 1 + t) = ((c % 2 ^ L) >>> (L - 1 - t)) % 2 := by
      intro t ht
      have hh := hbits (t + 1) (by omega)
      rw [show pos + (t + 1) = pos + 1 + t by omega] at hh
      rw [hh, show L + 1 - 1 - (t + 1) = L - 1 - t by omega,
        shiftRight_mod_pow_mod_two c L (L - 1 - t) (by omega)]
    have hih := ih (pos + 1) (c % 2 ^ L) hrest
    rw [hih, Nat.mod_mod_of_dvd c (dvd_refl (2 ^ L)), h0, Nat.shiftRight_eq_div_pow]
    have hms := @Nat.mod_pow_succ c 2 L
    have ha2 : c / 2 ^ L % 2 = 0 ∨ c / 2 ^ L % 2 = 1 := by omega
    rcases ha2 with ha | ha <;> rw [ha] at hms ⊢ <;> omega

theorem mask65535 (m : Nat) (h : m ≤ 16) : 65535 >>> (16 - m) = 2 ^ m - 1 := by
  interval_cases m <;> rfl

theorem codeOf_lt (lengths : List Nat)
    (hkraft : kraftPS lengths (maxLenOf lengths + 1) ≤ 2 ^ maxLenOf lengths)
    (s : Nat) (hs : s < lengths.length) (h0 : symLen lengths s ≠ 0) :
    codeOfSym lengths s < 2 ^ symLen lengths s := by
  have h1 := codeOf_succ_le lengths s hs h0
  have h2 := fcR_cnt_le_pow lengths hkraft (symLen lengths s) (symLen_le_maxLen lengths s hs)
  omega

/-- Decoding a single canonical code: when the stream bits at `pos` spell the
MSB-first canonical code of symbol `s`, `readHuffmanCode` on the inverted
`makeTable` table returns `s` and advances the cursor by exactly `len s`
bits. -/
theorem readHuffmanCode_decodes (lengths : List Nat) (hv : ValidLengths lengths)
    (data : List Nat) (hbytes : ∀ x ∈ data, x < 256)
    (s : Nat) (hs : s < lengths.length) (h0 : symLen lengths s ≠ 0) (pos : Nat)
    (hbits : ∀ t, t < symLen lengths s →
      bitAt data (pos + t) = (codeOfSym lengths s >>> (symLen lengths s - 1 - t)) % 2) :
    readHuffmanCode data ⟨pos / 8, pos % 8⟩ (invertTableBits (makeTable lengths)) =
      (s, ⟨(pos + symLen lengths s) / 8, (pos + symLen lengths s) % 8⟩) := by
  obtain ⟨h15, hkraft⟩ := hv
  have hM15 : maxLenOf lengths ≤ 15 := maxLen_le_15 lengths h15
  have hsM := symLen_le_maxLen lengths s hs
  unfold readHuffmanCode
  rw [show (invertTableBits (makeTable lengths)).maxBits = maxLenOf lengths from rfl]
  have hval := readBits_value data hbytes (pos / 8) (pos % 8) (maxLenOf lengths)
    (Nat.mod_lt _ (by omega)) hM15
  rw [show 8 * (pos / 8) + pos % 8 = pos by omega] at hval
  rw [hval]
  dsimp only
  -- the decode step
  have hV := bitsVal_lt data (maxLenOf lengths) pos
  have hdec : decodeCode (invertTableBits (makeTable lengths))
      (bitsVal data pos (maxLenOf lengths)) = ⟨s, symLen lengths s⟩ := by
    unfold decodeCode
    rw [show (invertTableBits (makeTable lengths)).maxBits = maxLenOf lengths from rfl]
    rw [mask65535 _ (by omega), Nat.and_pow_two_sub_one_eq_mod,
      Nat.mod_eq_of_lt hV]
    rw [invert_getD (makeTable lengths) (maxLenOf lengths) rfl
      (makeTable_entries_length lengths) (by omega) _ hV]
    -- revBits M V = ljSlot s + e
    rw [revBits_bitsVal data (maxLenOf lengths) pos]
    have hsplit : msbVal data pos (maxLenOf lengths) =
        msbVal data pos (symLen lengths s) * 2 ^ (maxLenOf lengths - symLen lengths s) +
          msbVal data (pos + symLen lengths s) (maxLenOf lengths - symLen lengths s) := by
      have h1 := msbVal_split data (symLen lengths s) pos (maxLenOf lengths - symLen lengths s)
      rw [show symLen lengths s + (maxLenOf lengths - symLen lengths s) = maxLenOf lengths
        by omega] at h1
      exact h1
    have hcode : msbVal data pos (symLen lengths s) = codeOfSym lengths s := by
      rw [msbVal_code data (symLen lengths s) pos (codeOfSym lengths s) hbits]
      exact Nat.mod_eq_of_lt (codeOf_lt lengths hkraft s hs h0)
    rw [hsplit, hcode]
    exact makeTable_slot lengths ⟨h15, hkraft⟩ s _ hs h0 (msbVal_lt data _ _)
  rw [hdec]
  dsimp only
  have hb8 : pos % 8 + symLen lengths s ≥ 0 := by omega
  refine congrArg (fun z => (s, z)) ?_
  have h1 : pos / 8 + (pos % 8 + symLen lengths s) / 8 = (pos + symLen lengths s) / 8 := by
    omega
  have h2 : (pos % 8 + symLen lengths s) % 8 = (pos + symLen lengths s) % 8 := by
    omega
  rw [h1, h2]

/-! ## Encoding side: MSB-first code emission, LSB-first byte packing -/

theorem msbBits_length (L c : Nat) : (msbBits L c).length = L := by
  simp [msbBits]

theorem msbBits_getD (L c t : Nat) (ht : t < L) :
    (msbBits L c).getD t 0 = (c >>> (L - 1 - t)) % 2 := by
  unfold msbBits
  rw [getD_map_range _ _ _ _ ht]

theorem msbBits_le_one (L c : Nat) : ∀ b ∈ msbBits L c, b ≤ 1 := by
  intro b hb
  unfold msbBits at hb
  obtain ⟨t, _, rfl⟩ := List.mem_map.mp hb
  omega

theorem encodeSyms_le_one (lengths : List Nat) : ∀ (syms : List Nat),
    ∀ b ∈ encodeSyms lengths syms, b ≤ 1 := by
  intro syms
  induction syms with
  | nil => intro b hb; simp [encodeSyms] at hb
  | cons s rest ih =>
    intro b hb
    unfold encodeSyms at hb
    rcases List.mem_append.mp hb with h | h
    · exact msbBits_le_one _ _ b h
    · exact ih b h

theorem natOfBits_lt : ∀ (l : List Nat), (∀ b ∈ l, b ≤ 1) → natOfBits l < 2 ^ l.length := by
  intro l
  induction l with
  | nil => intro _; simp [natOfBits]
  | cons b rest ih =>
    intro hb
    have h1 : b ≤ 1 := hb b (by simp)
    have h2 := ih (fun x hx => hb x (by simp [hx]))
    simp only [natOfBits, List.length_cons]
    have : 2 ^ (rest.length + 1) = 2 * 2 ^ rest.length := by ring
    omega

theorem natOfBits_bit : ∀ (l : List Nat) (k : Nat), (∀ b ∈ l, b ≤ 1) →
    (natOfBits l >>> k) % 2 = l.getD k 0 := by
  intro l
  induction l with
  | nil =>
    intro k _
    simp [natOfBits]
  | cons b rest ih =>
    intro k hb
    have h1 : b ≤ 1 := hb b (by simp)
    rcases Nat.eq_zero_or_pos k with h0 | hpos
    · subst h0
      simp only [natOfBits, Nat.shiftRight_zero, List.getD_cons_zero]
      omega
    · obtain ⟨k', rfl⟩ : ∃ k', k = k' + 1 := ⟨k - 1, by omega⟩
      have hdiv : (natOfBits (b :: rest)) >>> 1 = natOfBits rest := by
        simp only [natOfBits]
        rw [Nat.shiftRight_succ, Nat.shiftRight_zero]
        omega
      have hsplit : natOfBits (b :: rest) >>> (k' + 1) =
          (natOfBits (b :: rest) >>> 1) >>> k' := by
        rw [show k' + 1 = 1 + k' by omega, Nat.shiftRight_add]
      rw [hsplit, hdiv, List.getD_cons_succ]
      exact ih k' (fun x hx => hb x (by simp [hx]))

theorem packBits_bytes_lt (bits : List Nat) (hb : ∀ b ∈ bits, b ≤ 1) :
    ∀ x ∈ packBits bits, x < 256 := by
  intro x hx
  unfold packBits at hx
  obtain ⟨j, _, rfl⟩ := List.mem_map.mp hx
  have h1 : ∀ b ∈ (bits.drop (8 * j)).take 8, b ≤ 1 := fun b hmem =>
    hb b (List.mem_of_mem_drop (List.mem_of_mem_take hmem))
  have h2 := natOfBits_lt _ h1
  have h3 : ((bits.drop (8 * j)).take 8).length ≤ 8 := by
    simp [List.length_take]
  calc natOfBits ((bits.drop (8 * j)).take 8)
      < 2 ^ ((bits.drop (8 * j)).take 8).length := h2
    _ ≤ 2 ^ 8 := Nat.pow_le_pow_right (by omega) h3
    _ = 256 := by norm_num

/-- Bit `i` of the packed stream is bit `i` of the bit list. -/
theorem bitAt_packBits (bits : List Nat) (hb : ∀ b ∈ bits, b ≤ 1) (i : Nat) :
    bitAt (packBits bits) i = bits.getD i 0 := by
  unfold bitAt packBits
  rcases Nat.lt_or_ge (i / 8) ((bits.length + 7) / 8) with h | h
  · rw [getD_map_range _ _ _ _ h]
    have h1 : ∀ b ∈ (bits.drop (8 * (i / 8))).take 8, b ≤ 1 := fun b hmem =>
      hb b (List.mem_of_mem_drop (List.mem_of_mem_take hmem))
    rw [natOfBits_bit _ (i % 8) h1]
    have hgt : ((bits.drop (8 * (i / 8))).take 8).getD (i % 8) 0 = bits.getD i 0 := by
      unfold List.getD
      rw [List.get?_eq_getElem?, List.get?_eq_getElem?]
      rw [List.getElem?_take, if_pos (show i % 8 < 8 by omega), List.getElem?_drop]
      rw [show 8 * (i / 8) + i % 8 = i by omega]
    exact hgt
  · rw [List.getD_eq_default _ _ (by simpa using h)]
    have hlen : bits.length ≤ i := by omega
    rw [List.getD_eq_default _ _ hlen]
    simp

theorem encodeSyms_cons (lengths : List Nat) (s : Nat) (rest : List Nat) :
    encodeSyms lengths (s :: rest) =
      msbBits (symLen lengths s) (codeOfSym lengths s) ++ encodeSyms lengths rest := rfl

/-- Decoding a concatenation of canonical codes recovers the symbol sequence
and leaves the cursor at the exact total bit length. -/
theorem decodeSyms_spec (lengths : List Nat) (hv : ValidLengths lengths)
    (data : List Nat) (hbytes : ∀ x ∈ data, x < 256) :
    ∀ (syms : List Nat) (pos : Nat),
      (∀ s ∈ syms, s < lengths.length ∧ symLen lengths s ≠ 0) →
      (∀ t, t < (encodeSyms lengths syms).length →
        bitAt data (pos + t) = (encodeSyms lengths syms).getD t 0) →
      decodeSyms data (invertTableBits (makeTable lengths)) syms.length ⟨pos / 8, pos % 8⟩ =
        (syms, ⟨(pos + (encodeSyms lengths syms).length) / 8,
                (pos + (encodeSyms lengths syms).length) % 8⟩) := by
  intro syms
  induction syms with
  | nil =>
    intro pos _ _
    simp [decodeSyms, encodeSyms]
  | cons s rest ih =>
    intro pos hsyms hbits
    have hs := (hsyms s (by simp)).1
    have h0 := (hsyms s (by simp)).2
    have hlencons : (encodeSyms lengths (s :: rest)).length =
        symLen lengths s + (encodeSyms lengths rest).length := by
      rw [encodeSyms_cons, List.length_append, msbBits_length]
    have hone := readHuffmanCode_decodes lengths hv data hbytes s hs h0 pos (by
      intro t ht
      have hb := hbits t (by omega)
      rw [hb, encodeSyms_cons]
      unfold List.getD
      rw [List.get?_eq_getElem?, List.getElem?_append_left (by rw [msbBits_length]; exact ht)]
      rw [← List.get?_eq_getElem?]
      exact msbBits_getD _ _ t ht)
    show decodeSyms data (invertTableBits (makeTable lengths)) (rest.length + 1)
        ⟨pos / 8, pos % 8⟩ = _
    rw [decodeSyms]
    rw [hone]
    dsimp only
    have hrest := ih (pos + symLen lengths s)
      (fun s' h => hsyms s' (by simp [h]))
      (by
        intro t ht
        have hb := hbits (symLen lengths s + t) (by omega)
        rw [show pos + (symLen lengths s + t) = pos + symLen lengths s + t by omega] at hb
        rw [hb, encodeSyms_cons]
        unfold List.getD
        rw [List.get?_eq_getElem?,
          List.getElem?_append_right (by rw [msbBits_length]; omega)]
        rw [msbBits_length, show symLen lengths s + t - symLen lengths s = t by omega]
        rw [← List.get?_eq_getElem?])
    rw [hrest]
    rw [hlencons]
    have he : pos + symLen lengths s + (encodeSyms lengths rest).length =
        pos + (symLen lengths s + (encodeSyms lengths rest).length) := by omega
    rw [he]

/-- C9: the canonical Huffman round-trip. -/
theorem c9_huffman_roundtrip (lengths : List Nat) (hv : ValidLengths lengths)
    (syms : List Nat)
    (hsyms : ∀ s ∈ syms, s < lengths.length ∧ lengths.getD s 0 ≠ 0) :
    decodeSyms (packBits (encodeSyms lengths syms)) (invertTableBits (makeTable lengths))
        syms.length ⟨0, 0⟩ =
      (syms, ⟨(encodeSyms lengths syms).length / 8, (encodeSyms lengths syms).length % 8⟩) ∧
    encodeSyms lengths (decodeSyms (packBits (encodeSyms lengths syms))
        (invertTableBits (makeTable lengths)) syms.length ⟨0, 0⟩).1 =
      encodeSyms lengths syms := by
  have hb := encodeSyms_le_one lengths syms
  have h1 := decodeSyms_spec lengths hv (packBits (encodeSyms lengths syms))
    (packBits_bytes_lt _ hb) syms 0 hsyms (by
      intro t ht
      rw [Nat.zero_add]
      exact bitAt_packBits _ hb t)
  rw [Nat.zero_add] at h1
  constructor
  · exact h1
  · rw [h1]

theorem c9_huffman_roundtrip_witness :
    ValidLengths [2, 1, 3, 3] ∧
    (∀ s ∈ [3, 0, 1, 2], s < [2, 1, 3, 3].length ∧ [2, 1, 3, 3].getD s 0 ≠ 0) ∧
    (decodeSyms (packBits (encodeSyms [2, 1, 3, 3] [3, 0, 1, 2]))
        (invertTableBits (makeTable [2, 1, 3, 3])) 4 ⟨0, 0⟩ =
      ([3, 0, 1, 2], ⟨(encodeSyms [2, 1, 3, 3] [3, 0, 1, 2]).length / 8,
        (encodeSyms [2, 1, 3, 3] [3, 0, 1, 2]).length % 8⟩) ∧
     encodeSyms [2, 1, 3, 3] (decodeSyms (packBits (encodeSyms [2, 1, 3, 3] [3, 0, 1, 2]))
        (invertTableBits (makeTable [2, 1, 3, 3])) 4 ⟨0, 0⟩).1 =
      encodeSyms [2, 1, 3, 3] [3, 0, 1, 2]) :=
  ⟨⟨by decide, by decide⟩, by decide,
   c9_huffman_roundtrip [2, 1, 3, 3] ⟨by decide, by decide⟩ [3, 0, 1, 2] (by decide)⟩
